import Mathlib

/-!
Verification development for the utow-mayubot tournament engine
(src/storage.py, src/swiss_helpers.py, src/main.py).

The SQLite `matches` and `teams` tables are modelled as lists of rows for a
single tournament slug (all operations under verification are scoped to one
`tournament_name`).  Python `None` becomes `Option.none`; SQL `NULL`
comparisons and Python truthiness are reproduced where the source depends on
them.  Machine integers are `Nat`/`Int` (Python ints are unbounded, so no
modular wrap is needed).
-/

/-- A row of the `matches` table (storage.py SCHEMA), restricted to the
columns the engine logic reads/writes. -/
structure MatchRow where
  match_id : Nat
  phase : Option String := none
  round_no : Option Nat := none
  team_a : Option Nat := none
  team_b : Option Nat := none
  score_a : Option Int := none
  score_b : Option Int := none
  reported : Bool := false
  bracket : Option String := none
  start_time : Option String := none
deriving DecidableEq

/-- A row of the `teams` table: `team_role_id` (primary key) and the
per-tournament `team_id` seed. -/
structure TeamRow where
  role_id : Nat
  team_id : Nat
deriving DecidableEq

/-- The persistent state of one tournament: its `matches` table rows
(`matchRows`, since `matches` is reserved in Lean) and `teams` rows. -/
structure DB where
  matchRows : List MatchRow
  teams : List TeamRow
deriving DecidableEq

/-- Python dict-insertion-order deduplication (first occurrence kept),
as produced by building a dict keyed by list elements. -/
def pyDedup {α : Type} [DecidableEq α] : List α → List α
  | [] => []
  | a :: l => a :: pyDedup (l.filter (fun x => x ≠ a))
termination_by l => l.length
decreasing_by
  simp only [List.length_cons]
  exact Nat.lt_succ_of_le (List.length_filter_le _ _)

/-- Stable insertion of `x` into a sorted list: `x` goes in front of the
first element it compares `le` to, so earlier-listed elements with an equal
key stay in front. -/
def pyInsert {α : Type} (le : α → α → Bool) (x : α) : List α → List α
  | [] => [x]
  | y :: ys => if le x y then x :: y :: ys else y :: pyInsert le x ys

/-- Stable sort by a boolean comparison.  Python's `list.sort`/`sorted` is a
stable sort; for a total transitive comparison every stable sort produces
the same output, so this models it exactly. -/
def pySorted {α : Type} (le : α → α → Bool) : List α → List α
  | [] => []
  | x :: xs => pyInsert le x (pySorted le xs)

namespace Swiss

/-- `int(h["score_a"] or 0)` from swiss_helpers.compute_standings. -/
def sa0 (m : MatchRow) : Int := m.score_a.getD 0

/-- `int(h["score_b"] or 0)` from swiss_helpers.compute_standings. -/
def sb0 (m : MatchRow) : Int := m.score_b.getD 0

/-- Number of wins credited to `t` by swiss_helpers.compute_standings:
one per reported row where `t` is the side with the larger score. -/
def wins (history : List MatchRow) (t : Nat) : Nat :=
  (history.filter (fun h => h.reported &&
    ((h.team_a == some t && decide (sb0 h < sa0 h)) ||
     (h.team_b == some t && decide (sa0 h < sb0 h))))).length

/-- Number of losses credited to `t` by swiss_helpers.compute_standings. -/
def losses (history : List MatchRow) (t : Nat) : Nat :=
  (history.filter (fun h => h.reported &&
    ((h.team_b == some t && decide (sb0 h < sa0 h)) ||
     (h.team_a == some t && decide (sa0 h < sb0 h))))).length

/-- Map differential accumulated for `t` by swiss_helpers.compute_standings
(`MAP[a] += sa - sb; MAP[b] += sb - sa`, skipping unreported rows). -/
def mapDiff (history : List MatchRow) (t : Nat) : Int :=
  ((history.filter (·.reported)).map (fun h =>
    (if h.team_a = some t then sa0 h - sb0 h else 0) +
    (if h.team_b = some t then sb0 h - sa0 h else 0))).sum

/-- Python truthiness of an optional role id (`if a and b:` in
swiss_helpers.previous_opponents). -/
def truthy : Option Nat → Bool
  | none => false
  | some x => x != 0

/-- Membership in swiss_helpers.previous_opponents: `y ∈ opp[x]` after
folding the whole history (symmetric by construction). -/
def metB (history : List MatchRow) (x y : Nat) : Bool :=
  history.any (fun h => truthy h.team_a && truthy h.team_b &&
    ((h.team_a == some x && h.team_b == some y) ||
     (h.team_a == some y && h.team_b == some x)))

mutual

/-- The backtracking DFS of swiss_helpers._pair_bucket_no_repeats, as a
recursion over the list of still-unused bucket members (in bucket order):
pair the first unused member with the first allowed later member for which
the rest can be completed, else backtrack. -/
def pbDfs (opp : Nat → Nat → Bool) : List Nat → Option (List (Nat × Nat))
  | [] => some []
  | a :: rest => pbTry opp a [] rest
termination_by l => (l.length, l.length + 1)

/-- Inner candidate loop of the DFS: `tried` holds the already-rejected
candidates (in order), the third argument the remaining candidates. -/
def pbTry (opp : Nat → Nat → Bool) (a : Nat) (tried : List Nat) :
    List Nat → Option (List (Nat × Nat))
  | [] => none
  | b :: post =>
    if opp a b then pbTry opp a (tried ++ [b]) post
    else
      match pbDfs opp (tried ++ post) with
      | some out => some ((a, b) :: out)
      | none => pbTry opp a (tried ++ [b]) post
termination_by l => (tried.length + l.length + 1, l.length)
decreasing_by
  all_goals simp only [Prod.lex_def, List.length_append, List.length_cons,
    List.length_nil]
  all_goals omega

end

/-- swiss_helpers._pair_bucket_no_repeats. -/
def pair_bucket_no_repeats (opp : Nat → Nat → Bool) (bucket : List Nat) :
    Option (List (Nat × Nat)) :=
  pbDfs opp bucket

/-- Case B candidate scan of pair_next_round: walk the current group in
order looking for a leftover whose removal leaves an evenly sized,
no-repeat-pairable remainder and who has a non-repeat partner in the next
group.  Returns `(leftover, internal pairs)` on success. -/
def pnrCaseB (opp : Nat → Nat → Bool) (nextBucket : List Nat) :
    List Nat → List Nat → Option (Nat × List (Nat × Nat))
  | _, [] => none
  | pre, cand :: post =>
    let rest := pre ++ post
    if rest.length % 2 = 1 then pnrCaseB opp nextBucket (pre ++ [cand]) post
    else
      match pbDfs opp rest with
      | none => pnrCaseB opp nextBucket (pre ++ [cand]) post
      | some internal =>
        if nextBucket.any (fun nb => !(opp cand nb)) then some (cand, internal)
        else pnrCaseB opp nextBucket (pre ++ [cand]) post
termination_by _ l => l.length

/-- Case C greedy pairing of pair_next_round: repeatedly pair the first
unused team with the first later non-repeat partner, else with the first
later team; an unpartnerable final team becomes the carry. -/
def pnrGreedy (opp : Nat → Nat → Bool) : List Nat → List (Nat × Nat) × Option Nat
  | [] => ([], none)
  | a :: rest =>
    match rest.find? (fun y => !(opp a y)) with
    | some b =>
      let r := pnrGreedy opp (rest.erase b)
      ((a, b) :: r.1, r.2)
    | none =>
      match rest with
      | [] => ([], some a)
      | b :: rest2 =>
        let r := pnrGreedy opp rest2
        ((a, b) :: r.1, r.2)
termination_by l => l.length
decreasing_by
  · simp only [List.length_cons]
    exact Nat.lt_succ_of_le (List.length_erase_le _ _)
  · simp only [List.length_cons]
    omega

/-- One iteration of the `while i < len(buckets)` loop body of
pair_next_round, acting on the current group (carry already prepended):
returns the pairs emitted by this iteration and the carry passed on. -/
def pnrStep (opp : Nat → Nat → Bool) (cur nextBucket : List Nat)
    (carryIn : Option Nat) : List (Nat × Nat) × Option Nat :=
  let caseBC : List (Nat × Nat) × Option Nat :=
    match pnrCaseB opp nextBucket [] cur with
    | some (cand, internal) => (internal, some cand)
    | none =>
      if 2 ≤ cur.length then
        let g := pnrGreedy opp cur
        (g.1, match g.2 with | some a => some a | none => carryIn)
      else ([], carryIn)
  if cur.length % 2 = 0 then
    match pbDfs opp cur with
    | some paired => (paired, none)
    | none => caseBC
  else caseBC

/-- The bucket loop of pair_next_round. -/
def pnrLoop (opp : Nat → Nat → Bool) : List (List Nat) → Option Nat → List (Nat × Nat)
  | [], _ => []
  | bucket :: rest, carry =>
    let cur := match carry with
      | some c => c :: bucket
      | none => bucket
    let s := pnrStep opp cur (rest.headD []) carry
    s.1 ++ pnrLoop opp rest s.2

/-- `sorted(groups.keys(), key=lambda k: (-k[0], k[1]))` comparison. -/
def keyLe (k1 k2 : Nat × Nat) : Bool :=
  decide (k2.1 < k1.1) || (k1.1 == k2.1 && decide (k1.2 ≤ k2.2))

/-- The in-group sort key `(-wins, losses, -map_diff, t)`. -/
def igKey (history : List MatchRow) (t : Nat) : Int × Int × Int × Int :=
  (-(wins history t : Int), (losses history t : Int), -(mapDiff history t), (t : Int))

/-- Lexicographic comparison of two in-group keys (Python tuple `<=`). -/
def le4 (a b : Int × Int × Int × Int) : Bool :=
  decide (a.1 < b.1) || (a.1 == b.1 &&
    (decide (a.2.1 < b.2.1) || (a.2.1 == b.2.1 &&
      (decide (a.2.2.1 < b.2.2.1) || (a.2.2.1 == b.2.2.1 &&
        decide (a.2.2.2 ≤ b.2.2.2))))))

/-- `(wins, losses)` grouping key of a team. -/
def wlKey (history : List MatchRow) (t : Nat) : Nat × Nat :=
  (wins history t, losses history t)

/-- The ordered score-group buckets built by pair_next_round: standings keys
in dict order, group keys sorted best-to-worst, members of each group sorted
by the in-group key (Python `list.sort` is stable, matched by `pySorted`). -/
def buckets (teams : List Nat) (history : List MatchRow) : List (List Nat) :=
  let st := pyDedup teams
  let keys := pySorted keyLe (pyDedup (st.map (wlKey history)))
  keys.map (fun k =>
    pySorted (fun a b => le4 (igKey history a) (igKey history b))
      (st.filter (fun t => wlKey history t == k)))

/-- swiss_helpers.pair_next_round. -/
def pair_next_round (teams : List Nat) (history : List MatchRow) :
    List (Nat × Nat) :=
  pnrLoop (metB history) (buckets teams history) none

end Swiss

namespace Storage

/-- `m.phase = ?` for a non-NULL phase literal. -/
def phaseIs (phase : String) (m : MatchRow) : Bool := m.phase == some phase

/-- `m.phase = ? AND m.round_no = ?` (SQL `=` is false on NULL columns). -/
def inRound (phase : String) (r : Nat) (m : MatchRow) : Bool :=
  m.phase == some phase && m.round_no == some r

/-- `ORDER BY match_id`. -/
def midLe (a b : MatchRow) : Bool := decide (a.match_id ≤ b.match_id)

/-- storage.list_round_matches. -/
def list_round_matches (db : DB) (round_no : Nat) (phase : String) :
    List MatchRow :=
  pySorted midLe (db.matchRows.filter (inRound phase round_no))

/-- `ORDER BY round_no, match_id` with SQLite NULLs-first on `round_no`. -/
def histLe (a b : MatchRow) : Bool :=
  match a.round_no, b.round_no with
  | none, none => decide (a.match_id ≤ b.match_id)
  | none, some _ => true
  | some _, none => false
  | some x, some y =>
    decide (x < y) || (x == y && decide (a.match_id ≤ b.match_id))

/-- storage.swiss_history: all phase='swiss' rows. -/
def swiss_history (db : DB) : List MatchRow :=
  pySorted histLe (db.matchRows.filter (phaseIs "swiss"))

/-- storage.get_latest_round: `COALESCE(MAX(round_no), 0)` over the phase. -/
def get_latest_round (db : DB) (phase : String) : Nat :=
  (db.matchRows.filter (phaseIs phase)).foldl
    (fun acc m => max acc (m.round_no.getD 0)) 0

/-- storage.round_exists. -/
def round_exists (db : DB) (round_no : Nat) (phase : String) : Bool :=
  db.matchRows.any (inRound phase round_no)

/-- storage.is_round_fully_reported. -/
def is_round_fully_reported (db : DB) (round_no : Nat) (phase : String) : Bool :=
  let rows := db.matchRows.filter (inRound phase round_no)
  decide (0 < rows.length) && rows.all (·.reported)

/-- storage.get_latest_fully_reported_round: the greatest round number of
the phase whose rows are all reported (rows with NULL round_no have no
round number and are not candidates). -/
def get_latest_fully_reported_round (db : DB) (phase : String) : Option Nat :=
  ((db.matchRows.filterMap
      (fun m => if m.phase == some phase then m.round_no else none)).filter
    (fun r => is_round_fully_reported db r phase)).max?

/-- storage.round_has_placeholders: some row of the round with both team
slots NULL. -/
def round_has_placeholders (db : DB) (round_no : Nat) (phase : String) : Bool :=
  db.matchRows.any (fun m =>
    inRound phase round_no m && m.team_a == none && m.team_b == none)

/-- storage.list_round_placeholders: match ids of both-NULL rows of the
round, ordered by match_id. -/
def list_round_placeholders (db : DB) (round_no : Nat) (phase : String) :
    List Nat :=
  pySorted (fun a b => decide (a ≤ b))
    ((db.matchRows.filter (fun m =>
      inRound phase round_no m && m.team_a == none && m.team_b == none)).map
      (·.match_id))

/-- storage.set_match_teams: `UPDATE matches SET team_a…, team_b… WHERE
tournament_name=? AND match_id=?`. -/
def set_match_teams (db : DB) (mid : Nat) (ta tb : Nat) : DB :=
  { db with matchRows := db.matchRows.map (fun m =>
      if m.match_id == mid then { m with team_a := some ta, team_b := some tb }
      else m) }

/-- One placeholder-assignment UPDATE of storage.assign_pairs_into_round
(`WHERE … match_id=? AND phase=? AND round_no=?`). -/
def assignOne (phase : String) (round_no : Nat) (db : DB)
    (mp : Nat × (Nat × Nat)) : DB :=
  { db with matchRows := db.matchRows.map (fun m =>
      if m.match_id == mp.1 && inRound phase round_no m then
        { m with team_a := some mp.2.1, team_b := some mp.2.2 }
      else m) }

/-- storage.assign_pairs_into_round: re-reads the round's placeholders,
raises ValueError on a count mismatch before any write, else zips pairs
onto placeholder match ids in match-id order. -/
def assign_pairs_into_round (db : DB) (round_no : Nat)
    (pairs : List (Nat × Nat)) (phase : String) : Except String DB :=
  let mids := list_round_placeholders db round_no phase
  if mids.length ≠ pairs.length then
    Except.error "pair-count != placeholders"
  else
    Except.ok ((mids.zip pairs).foldl (assignOne phase round_no) db)

/-- storage.record_result: typed-error checks, then overwrite scores and
set reported=1. -/
def record_result (db : DB) (mid : Nat) (score_a score_b : Int) :
    Except String DB :=
  match db.matchRows.find? (fun m => m.match_id == mid) with
  | none => Except.error "match not found"
  | some row =>
    match row.team_a, row.team_b with
    | some a, some b =>
      let c := (db.teams.filter
        (fun t => t.role_id == a || t.role_id == b)).length
      if c ≠ 2 then
        Except.error "one or both teams are not mapped to this tournament"
      else
        Except.ok { db with matchRows := db.matchRows.map (fun m =>
          if m.match_id == mid then
            { m with score_a := some score_a, score_b := some score_b,
                     reported := true }
          else m) }
    | _, _ => Except.error "both teams must be assigned before reporting"

/-- A `pairings` element passed to storage.create_round. -/
structure Pairing where
  match_id : Option Nat := none
  team_a : Option Nat := none
  team_b : Option Nat := none
  start_time : Option String := none
  bracket : Option String := none
deriving DecidableEq

/-- The INSERT … ON CONFLICT(tournament_name, match_id) DO UPDATE of
storage.create_round, for one pairing. -/
def upsertCreate (round_no : Nat) (phase : String) (db : DB) (mid : Nat)
    (p : Pairing) : DB :=
  if db.matchRows.any (fun m => m.match_id == mid) then
    { db with matchRows := db.matchRows.map (fun m =>
        if m.match_id == mid then
          { m with phase := some phase, round_no := some round_no,
                   team_a := p.team_a, team_b := p.team_b,
                   start_time := match p.start_time with
                     | some s => some s
                     | none => m.start_time,
                   bracket := match p.bracket with
                     | some b => some b
                     | none => m.bracket }
        else m) }
  else
    { db with matchRows := db.matchRows ++
        [{ match_id := mid, phase := some phase, round_no := some round_no,
           team_a := p.team_a, team_b := p.team_b,
           start_time := p.start_time, bracket := p.bracket }] }

/-- storage._next_match_id_in_tx: `COALESCE(MAX(match_id), 0) + 1`. -/
def next_match_id_in_tx (db : DB) : Nat :=
  db.matchRows.foldl (fun acc m => max acc m.match_id) 0 + 1

/-- One iteration of storage.create_round's pairing loop: take the explicit
match id or allocate the running counter, and upsert the row. -/
def createStep (round_no : Nat) (phase : String) (st : DB × Nat × List Nat)
    (p : Pairing) : DB × Nat × List Nat :=
  let mid := p.match_id.getD st.2.1
  let next2 := if p.match_id = none then st.2.1 + 1 else st.2.1
  (upsertCreate round_no phase st.1 mid p, next2, st.2.2 ++ [mid])

/-- storage.create_round: allocate ids for pairings without one and upsert
each row; returns the new DB and the assigned ids. -/
def create_round (db : DB) (round_no : Nat) (pairings : List Pairing)
    (phase : String) : DB × List Nat :=
  let fin := pairings.foldl (createStep round_no phase)
    (db, next_match_id_in_tx db, [])
  (fin.1, fin.2.2)

/-- `score_a > score_b` in SQL three-valued logic (false on NULL). -/
def sgt (x y : Option Int) : Bool :=
  match x, y with
  | some a, some b => decide (b < a)
  | _, _ => false

/-- `score_a = score_b` in SQL three-valued logic (false on NULL). -/
def seqB (x y : Option Int) : Bool :=
  match x, y with
  | some a, some b => a == b
  | _, _ => false

/-- One output row of storage.compute_standings. -/
structure StandRow where
  team_role_id : Nat
  wins : Nat
  draws : Nat
  losses : Nat
  map_wins : Int
  map_losses : Int
  md : Int
  team_id_for_tiebreak : Nat
deriving DecidableEq

/-- The reported rows joined to team `rid` by storage.compute_standings
(`LEFT JOIN matches ON … (team_a=rid OR team_b=rid) AND reported=1
[AND phase=?]`). -/
def joinedRows (db : DB) (phase : Option String) (rid : Nat) :
    List MatchRow :=
  db.matchRows.filter (fun m =>
    (m.team_a == some rid || m.team_b == some rid) && m.reported &&
    (match phase with | some ph => m.phase == some ph | none => true))

/-- The aggregate row storage.compute_standings produces for one team. -/
def standRow (db : DB) (phase : Option String) (t : TeamRow) : StandRow :=
  let rows := joinedRows db phase t.role_id
  let mw : Int := (rows.map (fun m =>
    if m.team_a == some t.role_id then m.score_a.getD 0
    else if m.team_b == some t.role_id then m.score_b.getD 0 else 0)).sum
  let ml : Int := (rows.map (fun m =>
    if m.team_a == some t.role_id then m.score_b.getD 0
    else if m.team_b == some t.role_id then m.score_a.getD 0 else 0)).sum
  { team_role_id := t.role_id
    wins := rows.countP (fun m =>
      (m.team_a == some t.role_id && sgt m.score_a m.score_b) ||
      (m.team_b == some t.role_id && sgt m.score_b m.score_a))
    draws := rows.countP (fun m => seqB m.score_a m.score_b)
    losses := rows.countP (fun m =>
      (m.team_a == some t.role_id && sgt m.score_b m.score_a) ||
      (m.team_b == some t.role_id && sgt m.score_a m.score_b))
    map_wins := mw
    map_losses := ml
    md := mw - ml
    team_id_for_tiebreak := t.team_id }

/-- The Python sort key of storage.compute_standings:
`(-wins, -md, -map_wins, team_id)`, compared lexicographically. -/
def standKey (r : StandRow) : Int × Int × Int × Int :=
  (-(r.wins : Int), -r.md, -r.map_wins, (r.team_id_for_tiebreak : Int))

/-- storage.compute_standings: one aggregate row per team, sorted by
wins DESC, map diff DESC, map wins DESC, team_id ASC. -/
def compute_standings (db : DB) (phase : Option String) : List StandRow :=
  pySorted (fun a b => Swiss.le4 (standKey a) (standKey b))
    (db.teams.map (standRow db phase))

/-- storage.ranked_team_ids. -/
def ranked_team_ids (db : DB) (phase : Option String) : List Nat :=
  let rows := compute_standings db phase
  if rows ≠ [] then rows.map (·.team_role_id)
  else (pySorted (fun a b => decide (a.team_id ≤ b.team_id)) db.teams).map
    (·.role_id)

end Storage

namespace Main

/-- One rotation step of main.gen_roundrobin_pairs:
`arr = [arr[0]] + [arr[-1]] + arr[1:-1]`. -/
def rotateArr (arr : List (Option Nat)) : List (Option Nat) :=
  arr.take 1 ++ arr.reverse.take 1 ++ (arr.drop 1).dropLast

/-- The pair list emitted for one round:
`[(arr[i], arr[n-1-i]) for i in range(n // 2)]`. -/
def rrRound (n : Nat) (arr : List (Option Nat)) :
    List (Option Nat × Option Nat) :=
  (List.range (n / 2)).map (fun i => (arr.getD i none, arr.getD (n - 1 - i) none))

/-- The `for _ in range(rounds)` loop of main.gen_roundrobin_pairs. -/
def rrSched (n : Nat) : Nat → List (Option Nat) → List (List (Option Nat × Option Nat))
  | 0, _ => []
  | k + 1, arr => rrRound n arr :: rrSched n k (rotateArr arr)

/-- The padded player list (`players.append(None)` on odd pools). -/
def rrPlayers (ids : List Nat) : List (Option Nat) :=
  if ids.length % 2 = 1 then ids.map some ++ [none] else ids.map some

/-- main.gen_roundrobin_pairs. -/
def gen_roundrobin_pairs (ids : List Nat) :
    List (List (Option Nat × Option Nat)) :=
  let players := rrPlayers ids
  rrSched players.length (players.length - 1) players

/-- `if a is None or b is None: continue` — drop BYE pairs when turning a
schedule entry into concrete pairings (main.match_add, roundrobin branch). -/
def dropByes (rnd : List (Option Nat × Option Nat)) : List (Nat × Nat) :=
  rnd.filterMap (fun p =>
    match p.1, p.2 with
    | some a, some b => some (a, b)
    | _, _ => none)

/-- The concrete team pairings /match add creates for round-robin round
`target_round`: index the schedule cyclically and drop BYE pairs
(main.match_add, roundrobin branch). -/
def rr_round_pairings (ids : List Nat) (target_round : Nat) :
    List (Nat × Nat) :=
  let rr := gen_roundrobin_pairs ids
  dropByes (rr.getD ((target_round - 1) % rr.length) [])

/-- main.de_template_counts. -/
def de_template_counts (num_teams round_no : Nat) : List (String × Nat) :=
  if num_teams = 4 then
    match round_no with
    | 1 => [("WB", 2)]
    | 2 => [("WB", 1), ("LB", 1)]
    | 3 => [("LB", 1)]
    | 4 => [("GF", 1)]
    | _ => []
  else if num_teams = 6 then
    match round_no with
    | 1 => [("LCQ", 2)]
    | 2 => [("WB", 2)]
    | 3 => [("WB", 1), ("LB", 1)]
    | 4 => [("3P", 1), ("GF", 1)]
    | _ => []
  else if num_teams = 8 then
    match round_no with
    | 1 => [("WB", 4)]
    | 2 => [("WB", 2), ("LB", 2)]
    | 3 => [("WB", 1), ("LB", 1), ("4P", 1)]
    | 4 => [("LB", 1), ("GF", 1)]
    | _ => []
  else []

/-- ASCII uppercase, as `str.upper()` acts on the bracket tags
(structural equivalent of `String.toUpper`). -/
def pyUpper (s : String) : String := String.mk (s.data.map Char.toUpper)

/-- `(r.get("bracket") or "").upper()`. -/
def upperTag : Option String → String
  | none => ""
  | some s => pyUpper s

/-- `to_pairs` in main.do_de: consume a feed two at a time. -/
def toPairs : List Nat → List (Nat × Nat)
  | a :: b :: rest => (a, b) :: toPairs rest
  | _ => []

/-- A round-`latest` match contributing a winner and a loser in do_de:
reported, both scores present and different, both teams present. -/
def decisive (m : MatchRow) : Bool :=
  m.reported &&
  (match m.score_a, m.score_b with
   | some sa, some sb => sa != sb
   | _, _ => false) &&
  m.team_a != none && m.team_b != none

/-- `winner = a if sa > sb else b` (only used on decisive rows). -/
def winnerOf (m : MatchRow) : Nat :=
  if m.score_b.getD 0 < m.score_a.getD 0 then m.team_a.getD 0
  else m.team_b.getD 0

/-- `loser = b if sa > sb else a` (only used on decisive rows). -/
def loserOf (m : MatchRow) : Nat :=
  if m.score_b.getD 0 < m.score_a.getD 0 then m.team_b.getD 0
  else m.team_a.getD 0

/-- Decisive rows of the feeding round in match-id order. -/
def decisiveSorted (lm : List MatchRow) : List MatchRow :=
  (pySorted Storage.midLe lm).filter decisive

/-- `wb_winners` of do_de (default branch: tag neither LB nor LCQ). -/
def wbWinners (lm : List MatchRow) : List Nat :=
  ((decisiveSorted lm).filter (fun m =>
    upperTag m.bracket != "LB" && upperTag m.bracket != "LCQ")).map winnerOf

/-- `wb_losers` of do_de. -/
def wbLosers (lm : List MatchRow) : List Nat :=
  ((decisiveSorted lm).filter (fun m =>
    upperTag m.bracket != "LB" && upperTag m.bracket != "LCQ")).map loserOf

/-- `lb_winners` of do_de. -/
def lbWinners (lm : List MatchRow) : List Nat :=
  ((decisiveSorted lm).filter (fun m => upperTag m.bracket == "LB")).map winnerOf

/-- `lb_losers` of do_de. -/
def lbLosers (lm : List MatchRow) : List Nat :=
  ((decisiveSorted lm).filter (fun m => upperTag m.bracket == "LB")).map loserOf

/-- `lcq_winners` of do_de. -/
def lcqWinners (lm : List MatchRow) : List Nat :=
  ((decisiveSorted lm).filter (fun m => upperTag m.bracket == "LCQ")).map winnerOf

/-- `mids_by_br[tag]`: placeholder match ids of the next round carrying
`tag`, in match-id order. -/
def midsFor (placeholders : List MatchRow) (tag : String) : List Nat :=
  ((pySorted Storage.midLe placeholders).filter
    (fun r => upperTag r.bracket == tag)).map (·.match_id)

/-- Result of one main.do_de invocation. -/
inductive DeOutcome
  | noRounds
  | roundMissing (next_round : Nat)
  | noPlaceholders (next_round : Nat)
  | noLatestMatches (latest : Nat)
  | nothingToFill
  | filled (updates : List (Nat × Nat × Nat))
deriving DecidableEq

/-- The `updates` list computed by main.do_de once the guards have been
passed: 6-team round-2 LCQ seeding, then generic WB, LB, 4P, 3P and GF
feeds, each zipped onto its placeholder ids. -/
def deUpdates (db : DB) (latest : Nat) (placeholders lm : List MatchRow) :
    List (Nat × Nat × Nat) :=
  let n := db.teams.length
  let wbW := wbWinners lm
  let wbL := wbLosers lm
  let lbW := lbWinners lm
  let lbL := lbLosers lm
  let lcqW := lcqWinners lm
  let wbMids0 := midsFor placeholders "WB"
  let special :=
    if n = 6 ∧ latest = 1 ∧ wbMids0 ≠ [] ∧ 2 ≤ wbMids0.length then
      let seeds := Storage.ranked_team_ids db none
      if lcqW.length = 2 ∧ 2 ≤ seeds.length then
        some (((wbMids0.take 2).zip
          [(lcqW.getD 0 0, seeds.getD 0 0),
           (lcqW.getD 1 0, seeds.getD 1 0)]).map
            (fun mp => (mp.1, mp.2.1, mp.2.2)),
          wbMids0.drop 2)
      else none
    else none
  let upd6 := (special.map Prod.fst).getD []
  let wbMids := (special.map Prod.snd).getD wbMids0
  let updWB :=
    if wbMids ≠ [] then
      (wbMids.zip (toPairs wbW)).map (fun mp => (mp.1, mp.2.1, mp.2.2))
    else []
  let lbMids := midsFor placeholders "LB"
  let updLB :=
    if lbMids ≠ [] then
      (lbMids.zip (toPairs (wbL ++ lbW))).map (fun mp => (mp.1, mp.2.1, mp.2.2))
    else []
  let fpMids := midsFor placeholders "4P"
  let upd4P :=
    if fpMids ≠ [] then
      (fpMids.zip (toPairs wbL)).map (fun mp => (mp.1, mp.2.1, mp.2.2))
    else []
  let tpMids := midsFor placeholders "3P"
  let upd3P :=
    if tpMids ≠ [] then
      (tpMids.zip (toPairs (wbL ++ lbL))).map (fun mp => (mp.1, mp.2.1, mp.2.2))
    else []
  let gfMids := midsFor placeholders "GF"
  let updGF :=
    if gfMids ≠ [] then
      if (n = 4 ∨ n = 6) ∧ wbW ≠ [] ∧ lbW ≠ [] then
        [(gfMids.getD 0 0, wbW.getD 0 0, lbW.getD 0 0)]
      else []
    else []
  upd6 ++ updWB ++ updLB ++ upd4P ++ upd3P ++ updGF

/-- main.do_de (the double-elim branch of /tournament refresh), with its
guard sequence; on the `filled` outcome the updates are applied through
storage.set_match_teams. -/
def do_de (db : DB) : DeOutcome × DB :=
  let latest := Storage.get_latest_round db "double_elim"
  if latest = 0 then (DeOutcome.noRounds, db)
  else
    let next := latest + 1
    if ¬ Storage.round_exists db next "double_elim" then
      (DeOutcome.roundMissing next, db)
    else
      let nr := Storage.list_round_matches db next "double_elim"
      let placeholders := nr.filter (fun r => r.team_a == none && r.team_b == none)
      if placeholders = [] then (DeOutcome.noPlaceholders next, db)
      else
        let lm := Storage.list_round_matches db latest "double_elim"
        if lm = [] then (DeOutcome.noLatestMatches latest, db)
        else
          let updates := deUpdates db latest placeholders lm
          if updates = [] then (DeOutcome.nothingToFill, db)
          else
            (DeOutcome.filled updates,
             updates.foldl (fun acc u => Storage.set_match_teams acc u.1 u.2.1 u.2.2) db)

/-- `if t and t not in team_ids: team_ids.append(t)` in main.do_swiss. -/
def addTeam (acc : List Nat) (t : Option Nat) : List Nat :=
  match t with
  | some v => if v ≠ 0 ∧ ¬ acc.contains v then acc ++ [v] else acc
  | none => acc

/-- The team-pool collection loop of main.do_swiss over the previous
round's matches. -/
def collectTeams (ms : List MatchRow) : List Nat :=
  ms.foldl (fun acc m => addTeam (addTeam acc m.team_a) m.team_b) []

/-- Result of one main.do_swiss invocation. -/
inductive SwissOutcome
  | noFullRound
  | roundMissing (next_round : Nat)
  | noPlaceholders (next_round : Nat)
  | countMismatch (placeholder_count pair_count : Nat)
  | assignError
  | filled (writes : List (Nat × Nat × Nat))
deriving DecidableEq

/-- main.do_swiss (the Swiss branch of /tournament refresh). -/
def do_swiss (db : DB) : SwissOutcome × DB :=
  match Storage.get_latest_fully_reported_round db "swiss" with
  | none => (SwissOutcome.noFullRound, db)
  | some latest =>
    if latest = 0 then (SwissOutcome.noFullRound, db)
    else
      let next := latest + 1
      if ¬ Storage.round_exists db next "swiss" then
        (SwissOutcome.roundMissing next, db)
      else if ¬ Storage.round_has_placeholders db next "swiss" then
        (SwissOutcome.noPlaceholders next, db)
      else
        let prev := Storage.list_round_matches db latest "swiss"
        let team_ids := collectTeams prev
        let hist := Storage.swiss_history db
        let pairs := Swiss.pair_next_round team_ids hist
        let phs := Storage.list_round_placeholders db next "swiss"
        if pairs.length ≠ phs.length then
          (SwissOutcome.countMismatch phs.length pairs.length, db)
        else
          match Storage.assign_pairs_into_round db next pairs "swiss" with
          | Except.error _ => (SwissOutcome.assignError, db)
          | Except.ok db2 =>
            (SwissOutcome.filled
              ((phs.zip pairs).map (fun mp => (mp.1, mp.2.1, mp.2.2))), db2)

end Main

/-- Flatten a pairing into the list of teams it uses. -/
def pairsFlatten (ps : List (Nat × Nat)) : List Nat :=
  (ps.map (fun p => [p.1, p.2])).flatten

/-- The starting value bounds a running-max fold from below. -/
theorem foldl_max_init_le {α : Type} (f : α → Nat) (l : List α) (init : Nat) :
    init ≤ l.foldl (fun acc x => max acc (f x)) init := by
  induction l generalizing init with
  | nil => simp
  | cons a t ih => exact le_trans (Nat.le_max_left _ _) (ih (max init (f a)))

/-- Every member bounds a running-max fold from below. -/
theorem le_foldl_max {α : Type} (f : α → Nat) :
    ∀ (l : List α) (init : Nat) (m : α), m ∈ l →
      f m ≤ l.foldl (fun acc x => max acc (f x)) init := by
  intro l
  induction l with
  | nil => intro init m hm; cases hm
  | cons a t ih =>
    intro init m hm
    rcases List.mem_cons.mp hm with h | h
    · subst h
      exact le_trans (Nat.le_max_right _ _) (foldl_max_init_le f t _)
    · exact ih _ m h

/-- Rows of a phase never have a round number above
storage.get_latest_round for that phase. -/
theorem round_le_get_latest_round (db : DB) (phase : String) :
    ∀ m ∈ db.matchRows, Storage.phaseIs phase m = true →
      m.round_no.getD 0 ≤ Storage.get_latest_round db phase := by
  intro m hm hph
  unfold Storage.get_latest_round
  exact @le_foldl_max MatchRow (fun m => m.round_no.getD 0) _ 0 m
    (List.mem_filter.mpr ⟨hm, hph⟩)

/-- A round that exists is at most storage.get_latest_round. -/
theorem round_exists_le_latest (db : DB) (phase : String) (r : Nat)
    (h : Storage.round_exists db r phase = true) :
    r ≤ Storage.get_latest_round db phase := by
  unfold Storage.round_exists at h
  rcases List.any_eq_true.mp h with ⟨m, hm, hr⟩
  unfold Storage.inRound at hr
  rcases Bool.and_eq_true _ _ |>.mp hr with ⟨h1, h2⟩
  have hph : m.phase = some phase := by simpa using h1
  have hrn : m.round_no = some r := by simpa using h2
  have := round_le_get_latest_round db phase m hm
    (by simp [Storage.phaseIs, hph])
  rw [hrn] at this
  simpa using this

/-- main.do_de always stops at one of its first two guards: it computes
`latest = get_latest_round` (the maximum round number that exists,
placeholder rounds included) and then requires round `latest + 1` to exist,
which is impossible.  Hence the double-elim refresh never writes. -/
theorem do_de_stuck (db : DB) :
    (Main.do_de db).2 = db ∧
    ((Main.do_de db).1 = Main.DeOutcome.noRounds ∨
     (Main.do_de db).1 =
       Main.DeOutcome.roundMissing (Storage.get_latest_round db "double_elim" + 1)) := by
  unfold Main.do_de
  by_cases h0 : Storage.get_latest_round db "double_elim" = 0
  · simp [h0]
  · have hne : ¬ Storage.round_exists db
        (Storage.get_latest_round db "double_elim" + 1) "double_elim" = true := by
      intro hc
      have := round_exists_le_latest db "double_elim" _ hc
      omega
    simp [h0, hne]

/-- The concrete 4-team double-elimination state of claim C1: round 1
(two WB matches) fully reported with decisive scores — team 1 beat team 4
and team 2 beat team 3 — and round 2 existing as empty placeholders
(one WB, match 3, and one LB, match 4). -/
def deFourTeams : DB :=
  { matchRows :=
      [{ match_id := 1, phase := some "double_elim", round_no := some 1,
         team_a := some 1, team_b := some 4, score_a := some 2,
         score_b := some 0, reported := true, bracket := some "WB" },
       { match_id := 2, phase := some "double_elim", round_no := some 1,
         team_a := some 2, team_b := some 3, score_a := some 2,
         score_b := some 0, reported := true, bracket := some "WB" },
       { match_id := 3, phase := some "double_elim", round_no := some 2,
         bracket := some "WB" },
       { match_id := 4, phase := some "double_elim", round_no := some 2,
         bracket := some "LB" }],
    teams := [⟨1, 1⟩, ⟨2, 2⟩, ⟨3, 3⟩, ⟨4, 4⟩] }

/-- **C1.** The claim says the double-elim refresh fills the round-2 WB
placeholder with (winner of WB match 1, winner of WB match 2) and the
round-2 LB placeholder with (loser of WB match 1, loser of WB match 2).
On the code, `do_de` takes `latest = get_latest_round = 2` (the placeholder
round itself), demands that round 3 exist, and exits filling nothing — even
though round 1 is fully reported, round 2 has placeholders, and the
resolver core `deUpdates`, fed round 1 as the completed round, would
produce exactly the claimed assignments (match 3 ← (1,2), match 4 ← (4,3)).
The spec is the intent (do_swiss uses get_latest_fully_reported_round for
this purpose); do_de's use of get_latest_round is the slip. -/
theorem C1_de_refresh_fills_nothing :
    Storage.is_round_fully_reported deFourTeams 1 "double_elim" = true ∧
    Storage.round_has_placeholders deFourTeams 2 "double_elim" = true ∧
    Main.do_de deFourTeams = (Main.DeOutcome.roundMissing 3, deFourTeams) ∧
    Main.deUpdates deFourTeams 1
      ((Storage.list_round_matches deFourTeams 2 "double_elim").filter
        (fun r => r.team_a == none && r.team_b == none))
      (Storage.list_round_matches deFourTeams 1 "double_elim") =
      [(3, 1, 2), (4, 4, 3)] := by
  refine ⟨by decide, by decide, by decide, by decide⟩

/-- The schedule loop emits exactly as many rounds as requested. -/
theorem rrSched_length (n : Nat) :
    ∀ (k : Nat) (arr : List (Option Nat)), (Main.rrSched n k arr).length = k := by
  intro k
  induction k with
  | zero => intro arr; rfl
  | succ k ih => intro arr; simp [Main.rrSched, ih]

/-- **C6 (counterexample).** For the 3-team pool `[1,2,3]` and round `R = 3`
the code indexes the schedule with `(R−1) mod len(schedule)` where the
schedule has `N = 3` entries, producing `[(1,2)]`; the claim's index
`(R−1) mod (N−1) = 0` selects `[(2,3)]`. -/
theorem C6_cex :
    Main.rr_round_pairings [1, 2, 3] 3 = [(1, 2)] ∧
    Main.dropByes ((Main.gen_roundrobin_pairs [1, 2, 3]).getD
      (((3 : Nat) - 1) % (3 - 1)) []) = [(2, 3)] ∧
    Main.rr_round_pairings [1, 2, 3] 3 ≠
      Main.dropByes ((Main.gen_roundrobin_pairs [1, 2, 3]).getD
        (((3 : Nat) - 1) % (3 - 1)) []) := by
  refine ⟨by decide, by decide, by decide⟩

/-- **C6 (amended).** The pairings created for round-robin round `R` equal
entry `(R−1) mod L` of the circle-method schedule with its BYE pairs
dropped, where `L` is the schedule length: `N−1` for even pool size `N`
and `N` for odd `N` (not `N−1` unconditionally). -/
theorem C6_rr_cyclic_indexing (ids : List Nat) (R : Nat) :
    (Main.gen_roundrobin_pairs ids).length =
      (if ids.length % 2 = 0 then ids.length - 1 else ids.length) ∧
    Main.rr_round_pairings ids R =
      Main.dropByes ((Main.gen_roundrobin_pairs ids).getD
        ((R - 1) % (Main.gen_roundrobin_pairs ids).length) []) := by
  constructor
  · show (Main.rrSched _ _ _).length = _
    rw [rrSched_length]
    unfold Main.rrPlayers
    by_cases h : ids.length % 2 = 1
    · have h0 : ¬ ids.length % 2 = 0 := by omega
      simp [h, h0]
    · have h0 : ids.length % 2 = 0 := by omega
      simp [h, h0]
  · rfl

/-- A corrupted double-elim state for C7: round 1 has two reported decisive
WB matches (so one computed WB pair), while round 2 holds two WB
placeholders — a pair/placeholder count mismatch. -/
def deMismatch : DB :=
  { matchRows :=
      [{ match_id := 1, phase := some "double_elim", round_no := some 1,
         team_a := some 1, team_b := some 4, score_a := some 2,
         score_b := some 0, reported := true, bracket := some "WB" },
       { match_id := 2, phase := some "double_elim", round_no := some 1,
         team_a := some 2, team_b := some 3, score_a := some 2,
         score_b := some 0, reported := true, bracket := some "WB" },
       { match_id := 3, phase := some "double_elim", round_no := some 2,
         bracket := some "WB" },
       { match_id := 4, phase := some "double_elim", round_no := some 2,
         bracket := some "WB" }],
    teams := [⟨1, 1⟩, ⟨2, 2⟩, ⟨3, 3⟩, ⟨4, 4⟩] }

/-- **C7 (counterexample).** In `deMismatch` the WB placeholder count (2)
differs from the computed WB pair count (1), yet the double-elim refresh
raises no mismatch error of any kind: it exits at its latest-round guard
(`roundMissing`) and writes nothing.  (Had the guard been passed, the fill
logic zips pairs onto placeholders, silently truncating, still raising
nothing.)  So the claim's "holds for both the Swiss and the
double-elimination refresh paths" is false for the DE path. -/
theorem C7_cex :
    (Main.midsFor
      ((Storage.list_round_matches deMismatch 2 "double_elim").filter
        (fun r => r.team_a == none && r.team_b == none)) "WB").length = 2 ∧
    (Main.toPairs (Main.wbWinners
      (Storage.list_round_matches deMismatch 1 "double_elim"))).length = 1 ∧
    Main.do_de deMismatch = (Main.DeOutcome.roundMissing 3, deMismatch) := by
  refine ⟨by decide, by decide, by decide⟩

/-- Every run of main.do_swiss either fills placeholders or leaves the
database untouched. -/
theorem do_swiss_filled_or_unchanged (db : DB) :
    (∃ ws db2, Main.do_swiss db = (Main.SwissOutcome.filled ws, db2)) ∨
    (Main.do_swiss db).2 = db := by
  unfold Main.do_swiss
  repeat
    first
      | (left; exact ⟨_, _, rfl⟩)
      | (right; rfl)
      | split
      | dsimp only

/-- **C7 (amended).** On a pair/placeholder count mismatch the Swiss path
aborts with an error before any write: storage.assign_pairs_into_round
raises ValueError, and the do_swiss refresh leaves the database unchanged
(its own pre-check reports the mismatch).  The double-elimination refresh
path, by contrast, never raises such an error and never writes at all: its
latest-round guard exits before the assignment logic is reached. -/
theorem C7_mismatch_aborts :
    (∀ (db : DB) (round_no : Nat) (pairs : List (Nat × Nat)) (phase : String),
      (Storage.list_round_placeholders db round_no phase).length ≠ pairs.length →
      Storage.assign_pairs_into_round db round_no pairs phase =
        Except.error "pair-count != placeholders") ∧
    (∀ (db : DB) (p q : Nat),
      (Main.do_swiss db).1 = Main.SwissOutcome.countMismatch p q →
      (Main.do_swiss db).2 = db) ∧
    (∀ db : DB, (Main.do_de db).2 = db) := by
  refine ⟨?_, ?_, fun db => (do_de_stuck db).1⟩
  · intro db round_no pairs phase h
    unfold Storage.assign_pairs_into_round
    rw [if_pos h]
  · intro db p q h
    rcases do_swiss_filled_or_unchanged db with ⟨ws, db2, heq⟩ | hsame
    · rw [heq] at h; cases h
    · exact hsame

/-- Witness for C7's amended theorem at a concrete mismatching input. -/
theorem C7_mismatch_aborts_witness :
    (Storage.list_round_placeholders ⟨[], []⟩ 1 "swiss").length ≠
      ([(1, 2)] : List (Nat × Nat)).length ∧
    Storage.assign_pairs_into_round ⟨[], []⟩ 1 [(1, 2)] "swiss" =
      Except.error "pair-count != placeholders" :=
  ⟨by decide, C7_mismatch_aborts.1 ⟨[], []⟩ 1 [(1, 2)] "swiss" (by decide)⟩

/-- With unique role ids, a team row counts at most once for any role. -/
theorem countP_role_le_one (teams : List TeamRow)
    (hnd : (teams.map (·.role_id)).Nodup) (a : Nat) :
    teams.countP (fun t => t.role_id == a) ≤ 1 := by
  induction teams with
  | nil => simp
  | cons t ts ih =>
    rw [List.map_cons, List.nodup_cons] at hnd
    rcases hnd with ⟨hna, hnd⟩
    by_cases h : t.role_id = a
    · have hz : ts.countP (fun t => t.role_id == a) = 0 := by
        rw [List.countP_eq_zero]
        intro u hu
        simp only [beq_iff_eq]
        intro hua
        exact hna (List.mem_map.mpr ⟨u, hu, by rw [hua, h]⟩)
      simp [List.countP_cons, h, hz]
    · simpa [List.countP_cons, h] using ih hnd

/-- For distinct roles `a ≠ b` the or-filter count splits as a sum. -/
theorem countP_role_or_split (teams : List TeamRow) (a b : Nat) (hab : a ≠ b) :
    teams.countP (fun t => t.role_id == a || t.role_id == b) =
      teams.countP (fun t => t.role_id == a) +
      teams.countP (fun t => t.role_id == b) := by
  induction teams with
  | nil => simp
  | cons t ts ih =>
    by_cases ha : t.role_id = a
    · have hb : ¬ t.role_id = b := by rw [ha]; exact hab
      simp [List.countP_cons, ha, hb, ih, hab, Ne.symm hab]
      omega
    · by_cases hb : t.role_id = b
      · simp [List.countP_cons, ha, hb, ih, hab, Ne.symm hab]
        omega
      · simp [List.countP_cons, ha, hb, ih]

/-- The mapped-team count check of storage.record_result: with unique role
ids, `COUNT(*) = 2` over `team_role_id IN (a, b)` holds exactly when the two
roles are distinct and each is mapped. -/
theorem count_two_iff (teams : List TeamRow)
    (hnd : (teams.map (·.role_id)).Nodup) (a b : Nat) :
    (teams.filter (fun t => t.role_id == a || t.role_id == b)).length = 2 ↔
      (a ≠ b ∧ (∃ t ∈ teams, t.role_id = a) ∧ ∃ t ∈ teams, t.role_id = b) := by
  rw [Eq.symm (List.countP_eq_length_filter _ teams)]
  by_cases hab : a = b
  · subst hab
    have h1 : teams.countP (fun t => t.role_id == a || t.role_id == a) =
        teams.countP (fun t => t.role_id == a) := by
      apply List.countP_congr
      intro t ht
      simp
    have := countP_role_le_one teams hnd a
    rw [h1]
    constructor
    · intro h2; omega
    · rintro ⟨h, _⟩; exact absurd rfl h
  · rw [countP_role_or_split teams a b hab]
    have ha1 := countP_role_le_one teams hnd a
    have hb1 := countP_role_le_one teams hnd b
    have hae : 0 < teams.countP (fun t => t.role_id == a) ↔
        ∃ t ∈ teams, t.role_id = a := by
      rw [List.countP_pos_iff]
      simp
    have hbe : 0 < teams.countP (fun t => t.role_id == b) ↔
        ∃ t ∈ teams, t.role_id = b := by
      rw [List.countP_pos_iff]
      simp
    constructor
    · intro h2
      exact ⟨hab, hae.mp (by omega), hbe.mp (by omega)⟩
    · rintro ⟨-, h3, h4⟩
      have := hae.mpr h3
      have := hbe.mpr h4
      omega

deriving instance DecidableEq for Except

/-- A state where match 1 has the same mapped team in both slots. -/
def sameTeamMatch : DB :=
  { matchRows :=
      [{ match_id := 1, phase := some "swiss", round_no := some 1,
         team_a := some 5, team_b := some 5 }],
    teams := [⟨5, 1⟩] }

/-- **C10 (counterexample).** Match 1 exists, both team slots are set (to
team 5) and team 5 is mapped to the tournament, so by the claim's "if and
only if" record_result must succeed — but the code raises MatchUpdateError:
its mapped-team check counts rows with `team_role_id IN (a, b)` and demands
exactly 2, which a match whose two slots hold the same team can never
satisfy. -/
theorem C10_cex :
    sameTeamMatch.matchRows.find? (fun m => m.match_id == 1) =
      some { match_id := 1, phase := some "swiss", round_no := some 1,
             team_a := some 5, team_b := some 5 } ∧
    (∃ t ∈ sameTeamMatch.teams, t.role_id = 5) ∧
    Storage.record_result sameTeamMatch 1 2 0 =
      Except.error "one or both teams are not mapped to this tournament" := by
  refine ⟨by decide, ⟨⟨5, 1⟩, by decide, rfl⟩, by decide⟩

/-- **C10 (amended).** With unique role ids (the teams-table primary key),
record_result(slug, match_id, score_a, score_b) raises MatchUpdateError if
and only if the match does not exist, one of its team slots is unset, one
of its two teams is not mapped to the tournament, **or the two slots hold
the same team** (the COUNT(*)-based check requires two distinct mapped
roles); the raise happens before the UPDATE, leaving the match unchanged.
Otherwise it overwrites score_a and score_b and sets reported = 1 on every
row of that match id — including a match that was already reported, whose
previous scores are silently replaced. -/
theorem C10_record_result_spec (db : DB) (mid : Nat) (sa sb : Int)
    (hnd : (db.teams.map (·.role_id)).Nodup) :
    ((∃ e, Storage.record_result db mid sa sb = Except.error e) ↔
      (db.matchRows.find? (fun m => m.match_id == mid) = none ∨
       ∃ row, db.matchRows.find? (fun m => m.match_id == mid) = some row ∧
         (row.team_a = none ∨ row.team_b = none ∨ row.team_a = row.team_b ∨
          (∃ a, row.team_a = some a ∧ ∀ t ∈ db.teams, t.role_id ≠ a) ∨
          (∃ b, row.team_b = some b ∧ ∀ t ∈ db.teams, t.role_id ≠ b)))) ∧
    (∀ db2, Storage.record_result db mid sa sb = Except.ok db2 →
      db2 = { db with matchRows := db.matchRows.map (fun m =>
        if m.match_id == mid then
          { m with score_a := some sa, score_b := some sb, reported := true }
        else m) }) := by
  unfold Storage.record_result
  rcases hf : db.matchRows.find? (fun m => m.match_id == mid) with _ | row
  · rw [hf]
    constructor
    · constructor
      · intro _; left; rfl
      · intro _; exact ⟨_, rfl⟩
    · intro db2 h; cases h
  · rw [hf]
    dsimp only
    rcases ha : row.team_a with _ | a
    · constructor
      · constructor
        · intro _
          right
          exact ⟨row, rfl, Or.inl ha⟩
        · intro _
          exact ⟨_, rfl⟩
      · intro db2 h
        cases h
    · rcases hb : row.team_b with _ | b
      · constructor
        · constructor
          · intro _
            right
            exact ⟨row, rfl, Or.inr (Or.inl hb)⟩
          · intro _
            exact ⟨_, rfl⟩
        · intro db2 h
          cases h
      · dsimp only
        by_cases hc :
            (db.teams.filter (fun t => t.role_id == a || t.role_id == b)).length = 2
        · have hcond := (count_two_iff db.teams hnd a b).mp hc
          rcases hcond with ⟨hab, hma, hmb⟩
          constructor
          · constructor
            · rintro ⟨e, he⟩
              rw [if_neg (by omega)] at he
              cases he
            · rintro (h | ⟨row2, hrow2, hcase⟩)
              · cases h
              · injection hrow2 with hr
                subst hr
                rcases hcase with h | h | h | ⟨a2, ha2, hm⟩ | ⟨b2, hb2, hm⟩
                · rw [ha] at h; cases h
                · rw [hb] at h; cases h
                · rw [ha, hb] at h
                  injection h with h
                  exact absurd h hab
                · rw [ha] at ha2
                  injection ha2 with ha2
                  subst ha2
                  rcases hma with ⟨t, ht, hta⟩
                  exact absurd hta (hm t ht)
                · rw [hb] at hb2
                  injection hb2 with hb2
                  subst hb2
                  rcases hmb with ⟨t, ht, htb⟩
                  exact absurd htb (hm t ht)
          · intro db2 h
            rw [if_neg (by omega)] at h
            injection h with h
            exact h.symm
        · constructor
          · constructor
            · intro _
              right
              refine ⟨row, rfl, ?_⟩
              have hnot := fun hcond =>
                hc ((count_two_iff db.teams hnd a b).mpr hcond)
              by_cases hab : a = b
              · exact Or.inr (Or.inr (Or.inl (by rw [ha, hb, hab])))
              · by_cases hma : ∃ t ∈ db.teams, t.role_id = a
                · by_cases hmb : ∃ t ∈ db.teams, t.role_id = b
                  · exact absurd ⟨hab, hma, hmb⟩ hnot
                  · refine Or.inr (Or.inr (Or.inr (Or.inr ⟨b, hb, ?_⟩)))
                    intro t ht htb
                    exact hmb ⟨t, ht, htb⟩
                · refine Or.inr (Or.inr (Or.inr (Or.inl ⟨a, ha, ?_⟩)))
                  intro t ht hta
                  exact hma ⟨t, ht, hta⟩
            · intro _
              rw [if_pos hc]
              exact ⟨_, rfl⟩
          · intro db2 h
            rw [if_pos hc] at h
            cases h

/-- Witness for C10's amended theorem: on `sameTeamMatch` the error side of
the iff holds via the same-team disjunct. -/
theorem C10_record_result_spec_witness :
    (sameTeamMatch.teams.map (·.role_id)).Nodup ∧
    (∃ e, Storage.record_result sameTeamMatch 1 2 0 = Except.error e) :=
  ⟨by decide,
   (C10_record_result_spec sameTeamMatch 1 2 0 (by decide)).1.mpr
     (Or.inr ⟨{ match_id := 1, phase := some "swiss", round_no := some 1,
                team_a := some 5, team_b := some 5 }, by decide,
       Or.inr (Or.inr (Or.inl rfl))⟩)⟩

/-- The match-table invariant of the spec: a reported match has both team
slots filled and both scores present. -/
def MatchInv (db : DB) : Prop :=
  ∀ m ∈ db.matchRows, m.reported = true →
    m.team_a ≠ none ∧ m.team_b ≠ none ∧ m.score_a ≠ none ∧ m.score_b ≠ none

/-- A state holding one reported match (id 1) with both teams and scores. -/
def reportedOne : DB :=
  { matchRows :=
      [{ match_id := 1, phase := some "swiss", round_no := some 1,
         team_a := some 1, team_b := some 2, score_a := some 2,
         score_b := some 0, reported := true }],
    teams := [⟨1, 1⟩, ⟨2, 2⟩] }

/-- The row that create_round's conflict-update produces from the reported
match of `reportedOne` when re-targeted by a teamless pairing. -/
def blankedRow : MatchRow :=
  { match_id := 1, phase := some "swiss", round_no := some 2,
    team_a := none, team_b := none, score_a := some 2, score_b := some 0,
    reported := true }

/-- **C9 (counterexample).** storage.create_round, handed a pairing with the
explicit match_id of an existing reported match and no teams, upserts via
`ON CONFLICT … DO UPDATE SET team_a_role_id=excluded.…` and thereby blanks
the team slots of a reported row while leaving `reported = 1` and the old
scores in place — breaking the invariant. -/
theorem C9_cex :
    MatchInv reportedOne ∧
    ¬ MatchInv (Storage.create_round reportedOne 2
      [{ match_id := some 1 }] "swiss").1 := by
  constructor
  · intro m hm
    simp only [reportedOne, List.mem_singleton] at hm
    subst hm
    intro _
    refine ⟨by simp, by simp, by simp, by simp⟩
  · intro h
    have := h blankedRow (by decide) rfl
    exact this.1 rfl

/-- storage.set_match_teams only writes `some` values into team slots, so
it preserves the invariant. -/
theorem set_match_teams_inv (db : DB) (mid ta tb : Nat) (h : MatchInv db) :
    MatchInv (Storage.set_match_teams db mid ta tb) := by
  intro m hm hrep
  unfold Storage.set_match_teams at hm
  simp only [List.mem_map] at hm
  rcases hm with ⟨m0, hm0, hm0eq⟩
  by_cases hmid : (m0.match_id == mid) = true
  · rw [if_pos hmid] at hm0eq
    subst hm0eq
    have h0 := h m0 hm0 hrep
    exact ⟨by simp, by simp, h0.2.2.1, h0.2.2.2⟩
  · rw [if_neg hmid] at hm0eq
    subst hm0eq
    exact h m0 hm0 hrep

/-- One placeholder assignment preserves the invariant (it only writes
`some` team values). -/
theorem assignOne_inv (phase : String) (round_no : Nat) (db : DB)
    (mp : Nat × (Nat × Nat)) (h : MatchInv db) :
    MatchInv (Storage.assignOne phase round_no db mp) := by
  intro m hm hrep
  unfold Storage.assignOne at hm
  simp only [List.mem_map] at hm
  rcases hm with ⟨m0, hm0, hm0eq⟩
  by_cases hc : (m0.match_id == mp.1 && Storage.inRound phase round_no m0) = true
  · rw [if_pos hc] at hm0eq
    subst hm0eq
    have h0 := h m0 hm0 hrep
    exact ⟨by simp, by simp, h0.2.2.1, h0.2.2.2⟩
  · rw [if_neg hc] at hm0eq
    subst hm0eq
    exact h m0 hm0 hrep

/-- Folding invariant-preserving steps preserves the invariant. -/
theorem foldl_inv {β : Type} (g : DB → β → DB) (P : DB → Prop)
    (hg : ∀ db x, P db → P (g db x)) :
    ∀ (l : List β) (db : DB), P db → P (l.foldl g db) := by
  intro l
  induction l with
  | nil => intro db h; exact h
  | cons x xs ih => intro db h; exact ih _ (hg db x h)

/-- storage.assign_pairs_into_round preserves the invariant whenever it
succeeds. -/
theorem assign_pairs_inv (db : DB) (round_no : Nat) (pairs : List (Nat × Nat))
    (phase : String) (db2 : DB) (h : MatchInv db)
    (hok : Storage.assign_pairs_into_round db round_no pairs phase =
      Except.ok db2) :
    MatchInv db2 := by
  unfold Storage.assign_pairs_into_round at hok
  by_cases hc : (Storage.list_round_placeholders db round_no phase).length ≠
      pairs.length
  · rw [if_pos hc] at hok; cases hok
  · rw [if_neg hc] at hok
    injection hok with hok
    subst hok
    exact foldl_inv _ MatchInv (assignOne_inv phase round_no) _ db h

/-- storage.record_result preserves the invariant whenever it succeeds:
the updated rows get both scores and, by the primary-key uniqueness of
match ids, are the row whose two team slots the function checked. -/
theorem record_result_inv (db : DB) (mid : Nat) (sa sb : Int) (db2 : DB)
    (hnd : (db.matchRows.map (·.match_id)).Nodup) (h : MatchInv db)
    (hok : Storage.record_result db mid sa sb = Except.ok db2) :
    MatchInv db2 := by
  unfold Storage.record_result at hok
  rcases hf : db.matchRows.find? (fun m => m.match_id == mid) with _ | row
  · rw [hf] at hok; cases hok
  · rw [hf] at hok
    dsimp only at hok
    rcases ha : row.team_a with _ | a
    · rw [ha] at hok
      rcases hb : row.team_b with _ | b <;> rw [hb] at hok <;> cases hok
    · rw [ha] at hok
      rcases hb : row.team_b with _ | b
      · rw [hb] at hok; cases hok
      · rw [hb] at hok
        dsimp only at hok
        by_cases hc :
            (db.teams.filter (fun t => t.role_id == a || t.role_id == b)).length = 2
        · rw [if_neg (by omega)] at hok
          injection hok with hok
          subst hok
          intro m hm hrep
          simp only [List.mem_map] at hm
          rcases hm with ⟨m0, hm0, hm0eq⟩
          by_cases hmid : (m0.match_id == mid) = true
          · rw [if_pos hmid] at hm0eq
            subst hm0eq
            have hrowmem := List.mem_of_find?_eq_some hf
            have hrowmid : row.match_id = mid := by
              simpa using List.find?_some hf
            have hm0mid : m0.match_id = mid := by simpa using hmid
            have : m0 = row :=
              List.inj_on_of_nodup_map hnd hm0 hrowmem (by rw [hm0mid, hrowmid])
            subst this
            refine ⟨by simp [ha], by simp [hb], by simp, by simp⟩
          · rw [if_neg hmid] at hm0eq
            subst hm0eq
            exact h m0 hm0 hrep
        · rw [if_pos (by omega)] at hok
          cases hok

/-- The pairing loop of create_round, when every pairing has `match_id`
None, only appends fresh rows: each allocated id is the counter, which
stays above every id in the table, so the upsert always takes its INSERT
branch; inserted rows carry `reported = 0` and no scores. -/
theorem create_round_fold_fresh (round_no : Nat) (phase : String) :
    ∀ (ps : List Storage.Pairing) (db : DB) (cnt : Nat) (acc : List Nat),
      (∀ p ∈ ps, p.match_id = none) →
      (∀ m ∈ db.matchRows, m.match_id < cnt) →
      ∃ newRows,
        (ps.foldl (Storage.createStep round_no phase) (db, cnt, acc)).1.matchRows =
          db.matchRows ++ newRows ∧
        (∀ m ∈ newRows,
          m.reported = false ∧ m.score_a = none ∧ m.score_b = none) := by
  intro ps
  induction ps with
  | nil =>
    intro db cnt acc _ _
    exact ⟨[], by simp, by simp⟩
  | cons p ps ih =>
    intro db cnt acc hnone hcnt
    have hp : p.match_id = none := hnone p (List.mem_cons_self p ps)
    have hany : db.matchRows.any (fun m => m.match_id == cnt) = false := by
      rw [List.any_eq_false]
      intro m hm
      simp only [beq_iff_eq]
      exact Nat.ne_of_lt (hcnt m hm)
    have hstep : Storage.createStep round_no phase (db, cnt, acc) p =
        ({ db with matchRows := db.matchRows ++
            [{ match_id := cnt, phase := some phase, round_no := some round_no,
               team_a := p.team_a, team_b := p.team_b,
               start_time := p.start_time, bracket := p.bracket }] },
          cnt + 1, acc ++ [cnt]) := by
      unfold Storage.createStep Storage.upsertCreate
      rw [hp]
      simp [hany]
    rw [List.foldl_cons, hstep]
    have hcnt2 : ∀ m ∈ ({ db with matchRows := db.matchRows ++
        [{ match_id := cnt, phase := some phase, round_no := some round_no,
           team_a := p.team_a, team_b := p.team_b,
           start_time := p.start_time, bracket := p.bracket }] } : DB).matchRows,
        m.match_id < cnt + 1 := by
      intro m hm
      rcases List.mem_append.mp hm with h | h
      · exact Nat.lt_succ_of_lt (hcnt m h)
      · rcases List.mem_singleton.mp h with rfl
        exact Nat.lt_succ_self cnt
    rcases ih _ (cnt + 1) (acc ++ [cnt])
      (fun q hq => hnone q (List.mem_cons_of_mem p hq)) hcnt2 with
      ⟨newRows1, heq, hprops⟩
    refine ⟨{ match_id := cnt, phase := some phase, round_no := some round_no,
              team_a := p.team_a, team_b := p.team_b,
              start_time := p.start_time, bracket := p.bracket } :: newRows1,
      ?_, ?_⟩
    · rw [heq]
      simp
    · intro m hm
      rcases List.mem_cons.mp hm with h | h
      · subst h
        exact ⟨rfl, rfl, rfl⟩
      · exact hprops m h

/-- **C9 (amended).** The invariant `reported ⇒ both teams filled and both
scores present` is preserved by record_result (which refuses unassigned
matches; with the table's primary-key-unique match ids it only updates the
checked row), by set_match_teams and assign_pairs_into_round (which only
write `some` team values), and by create_round whenever its pairings carry
no explicit match_id — as at every call site — in which case it moreover
only appends fresh rows with `reported = 0` and no scores.  (With an
explicit match_id colliding with an existing reported match, create_round's
conflict-update blanks the team slots of a reported row: see the
counterexample.) -/
theorem C9_invariant_preservation :
    (∀ (db : DB) (mid : Nat) (sa sb : Int) (db2 : DB),
      (db.matchRows.map (·.match_id)).Nodup → MatchInv db →
      Storage.record_result db mid sa sb = Except.ok db2 → MatchInv db2) ∧
    (∀ (db : DB) (mid ta tb : Nat), MatchInv db →
      MatchInv (Storage.set_match_teams db mid ta tb)) ∧
    (∀ (db : DB) (round_no : Nat) (pairs : List (Nat × Nat)) (phase : String)
      (db2 : DB), MatchInv db →
      Storage.assign_pairs_into_round db round_no pairs phase = Except.ok db2 →
      MatchInv db2) ∧
    (∀ (db : DB) (round_no : Nat) (ps : List Storage.Pairing) (phase : String),
      (∀ p ∈ ps, p.match_id = none) → MatchInv db →
      MatchInv (Storage.create_round db round_no ps phase).1 ∧
      ∃ newRows,
        (Storage.create_round db round_no ps phase).1.matchRows =
          db.matchRows ++ newRows ∧
        ∀ m ∈ newRows,
          m.reported = false ∧ m.score_a = none ∧ m.score_b = none) := by
  refine ⟨record_result_inv, set_match_teams_inv, assign_pairs_inv, ?_⟩
  intro db round_no ps phase hnone hinv
  have hcnt : ∀ m ∈ db.matchRows, m.match_id < Storage.next_match_id_in_tx db := by
    intro m hm
    unfold Storage.next_match_id_in_tx
    have h2 : m.match_id ≤ db.matchRows.foldl (fun acc m => max acc m.match_id) 0 :=
      @le_foldl_max MatchRow (fun m => m.match_id) db.matchRows 0 m hm
    omega
  rcases create_round_fold_fresh round_no phase ps db
    (Storage.next_match_id_in_tx db) [] hnone hcnt with ⟨newRows, heq, hprops⟩
  have heq2 : (Storage.create_round db round_no ps phase).1.matchRows =
      db.matchRows ++ newRows := heq
  constructor
  · intro m hm hrep
    rw [heq2] at hm
    rcases List.mem_append.mp hm with h | h
    · exact hinv m h hrep
    · exact absurd hrep (by simp [(hprops m h).1])
  · exact ⟨newRows, heq2, hprops⟩

/-- The empty tournament state. -/
def emptyDB : DB := { matchRows := [], teams := [] }

/-- Witness for C9's amended theorem at a concrete input. -/
theorem C9_invariant_preservation_witness :
    MatchInv emptyDB ∧ MatchInv (Storage.set_match_teams emptyDB 1 2 3) :=
  ⟨fun m hm => absurd hm (by simp [emptyDB]),
   C9_invariant_preservation.2.1 emptyDB 1 2 3
     (fun m hm => absurd hm (by simp [emptyDB]))⟩

/-- pyDedup of a duplicate-free list is the list itself. -/
theorem pyDedup_eq_self {α : Type} [DecidableEq α] :
    ∀ (l : List α), l.Nodup → pyDedup l = l := by
  intro l
  induction l with
  | nil => intro _; simp [pyDedup]
  | cons a t ih =>
    intro hnd
    rcases List.nodup_cons.mp hnd with ⟨hna, hndt⟩
    rw [pyDedup]
    have hfilter : t.filter (fun x => x ≠ a) = t := by
      rw [List.filter_eq_self]
      intro x hx
      simp only [ne_eq, decide_eq_true_eq]
      intro hxa
      exact hna (hxa ▸ hx)
    rw [hfilter, ih hndt]

/-- pyDedup of a constant nonempty list is the one-element list. -/
theorem pyDedup_replicate {α : Type} [DecidableEq α] (n : Nat) (c : α)
    (h : n ≠ 0) : pyDedup (List.replicate n c) = [c] := by
  cases n with
  | zero => exact absurd rfl h
  | succ k =>
    rw [List.replicate_succ, pyDedup]
    have : (List.replicate k c).filter (fun x => x ≠ c) = [] := by
      rw [List.filter_eq_nil_iff]
      intro x hx
      simp [List.eq_of_mem_replicate hx]
    rw [this]
    simp [pyDedup]

/-- Inserting into a list permutes consing onto it. -/
theorem pyInsert_perm {α : Type} (le : α → α → Bool) (x : α) :
    ∀ (l : List α), (pyInsert le x l).Perm (x :: l) := by
  intro l
  induction l with
  | nil => exact List.Perm.refl _
  | cons y ys ih =>
    rw [pyInsert]
    by_cases h : le x y = true
    · rw [if_pos h]
    · rw [if_neg h]
      exact List.Perm.trans (List.Perm.cons y ih) (List.Perm.swap x y ys)

/-- The stable sort is a permutation of its input. -/
theorem pySorted_perm {α : Type} (le : α → α → Bool) :
    ∀ (l : List α), (pySorted le l).Perm l := by
  intro l
  induction l with
  | nil => exact List.Perm.refl _
  | cons x xs ih =>
    rw [pySorted]
    exact List.Perm.trans (pyInsert_perm le x (pySorted le xs))
      (List.Perm.cons x ih)

/-- Greedy two-by-two chunking of a list into pairs (the shape the DFS
produces when every partner is allowed). -/
def chunk2 : List Nat → List (Nat × Nat)
  | a :: b :: rest => (a, b) :: chunk2 rest
  | _ => []

/-- Chunking an even list loses nothing. -/
theorem chunk2_flatten (l : List Nat) (h : l.length % 2 = 0) :
    pairsFlatten (chunk2 l) = l := by
  match l with
  | [] => simp [chunk2, pairsFlatten]
  | [a] => simp at h
  | a :: b :: rest =>
    have hr : rest.length % 2 = 0 := by
      simp only [List.length_cons] at h
      omega
    have ih := chunk2_flatten rest hr
    simp only [chunk2, pairsFlatten, List.map_cons, List.flatten_cons] at ih ⊢
    rw [ih]
    rfl
termination_by l.length

/-- Chunking halves the length. -/
theorem chunk2_length (l : List Nat) : (chunk2 l).length = l.length / 2 := by
  match l with
  | [] => simp [chunk2]
  | [a] => simp [chunk2]
  | a :: b :: rest =>
    have ih := chunk2_length rest
    simp only [chunk2, List.length_cons, ih]
    omega
termination_by l.length

/-- When no pair is forbidden, the backtracking DFS pairs an even group
greedily two by two, never backtracking. -/
theorem pbDfs_all_false (opp : Nat → Nat → Bool)
    (hopp : ∀ x y, opp x y = false) (l : List Nat) (h : l.length % 2 = 0) :
    Swiss.pbDfs opp l = some (chunk2 l) := by
  match l with
  | [] => simp [Swiss.pbDfs, chunk2]
  | [a] => simp at h
  | a :: b :: rest =>
    have hr : rest.length % 2 = 0 := by
      simp only [List.length_cons] at h
      omega
    have ih := pbDfs_all_false opp hopp rest hr
    rw [Swiss.pbDfs, Swiss.pbTry, hopp a b]
    simp only [Bool.false_eq_true, if_false, List.nil_append, ih]
    rfl
termination_by l.length

/-- A single even bucket whose DFS succeeds yields exactly that pairing. -/
theorem pnrLoop_single_even (opp : Nat → Nat → Bool) (bucket : List Nat)
    (heven : bucket.length % 2 = 0) (out : List (Nat × Nat))
    (hdfs : Swiss.pbDfs opp bucket = some out) :
    Swiss.pnrLoop opp [bucket] none = out := by
  rw [Swiss.pnrLoop]
  unfold Swiss.pnrStep
  simp only [heven, if_pos, hdfs]
  rw [Swiss.pnrLoop]
  simp

/-- When every team has the same (wins, losses) record, pair_next_round's
grouping produces a single bucket: the whole pool in in-group sorted
order. -/
theorem buckets_single (teams : List Nat) (history : List MatchRow)
    (hnd : teams.Nodup) (hne : teams ≠ []) (k : Nat × Nat)
    (hsame : ∀ t ∈ teams, Swiss.wlKey history t = k) :
    Swiss.buckets teams history =
      [pySorted (fun a b => Swiss.le4 (Swiss.igKey history a)
        (Swiss.igKey history b)) teams] := by
  unfold Swiss.buckets
  dsimp only
  rw [pyDedup_eq_self teams hnd]
  have hmap : teams.map (Swiss.wlKey history) =
      List.replicate teams.length k :=
    List.map_eq_replicate_iff.mpr hsame
  rw [hmap, pyDedup_replicate teams.length k
    (fun h => hne (List.eq_nil_of_length_eq_zero h))]
  have hkeys : pySorted Swiss.keyLe [k] = [k] := by
    simp [pySorted, pyInsert]
  rw [hkeys]
  have hfilter : teams.filter (fun t => Swiss.wlKey history t == k) = teams := by
    rw [List.filter_eq_self]
    intro t ht
    simp [hsame t ht]
  simp only [List.map_cons, List.map_nil, hfilter]

/-- **C2.** For every even-sized duplicate-free team pool with empty match
history, Swiss pairing returns exactly pool_size/2 pairs whose flattened
team list is a permutation of the pool (so every team appears exactly once)
and contains no duplicates (no team in two pairs). -/
theorem C2_swiss_pairs_cover_pool (teams : List Nat) (hnd : teams.Nodup)
    (heven : teams.length % 2 = 0) :
    (Swiss.pair_next_round teams []).length = teams.length / 2 ∧
    (pairsFlatten (Swiss.pair_next_round teams [])).Perm teams ∧
    (pairsFlatten (Swiss.pair_next_round teams [])).Nodup := by
  by_cases hne : teams = []
  · subst hne
    refine ⟨?_, ?_, ?_⟩ <;>
      simp [Swiss.pair_next_round, Swiss.buckets, pyDedup, pySorted,
        Swiss.pnrLoop, pairsFlatten]
  · have hkey : ∀ t ∈ teams, Swiss.wlKey [] t = (0, 0) := by
      intro t _
      rfl
    have hb := buckets_single teams [] hnd hne (0, 0) hkey
    have hperm : (pySorted (fun a b => Swiss.le4 (Swiss.igKey [] a)
        (Swiss.igKey [] b)) teams).Perm teams := pySorted_perm _ teams
    have hlen := hperm.length_eq
    have hopp : ∀ x y, Swiss.metB [] x y = false := fun _ _ => rfl
    have hdfs := pbDfs_all_false (Swiss.metB []) hopp _
      (by rw [hlen]; exact heven)
    have hloop := pnrLoop_single_even (Swiss.metB []) _
      (by rw [hlen]; exact heven) _ hdfs
    unfold Swiss.pair_next_round
    rw [hb, hloop]
    have hflat := chunk2_flatten _ (by rw [hlen]; exact heven)
    refine ⟨?_, ?_, ?_⟩
    · rw [chunk2_length, hlen]
    · rw [hflat]
      exact hperm
    · rw [hflat]
      exact hperm.nodup_iff.mpr hnd

/-- Witness for C2 at the concrete pool [1,2,3,4]. -/
theorem C2_swiss_pairs_cover_pool_witness :
    ([1, 2, 3, 4] : List Nat).Nodup ∧
    ([1, 2, 3, 4] : List Nat).length % 2 = 0 ∧
    ((Swiss.pair_next_round [1, 2, 3, 4] []).length =
      ([1, 2, 3, 4] : List Nat).length / 2 ∧
     (pairsFlatten (Swiss.pair_next_round [1, 2, 3, 4] [])).Perm [1, 2, 3, 4] ∧
     (pairsFlatten (Swiss.pair_next_round [1, 2, 3, 4] [])).Nodup) :=
  ⟨by decide, by decide,
   C2_swiss_pairs_cover_pool [1, 2, 3, 4] (by decide) (by decide)⟩

/-- Membership in a stable insertion. -/
theorem mem_pyInsert {α : Type} (le : α → α → Bool) (x z : α) (l : List α) :
    z ∈ pyInsert le x l ↔ z = x ∨ z ∈ l := by
  rw [(pyInsert_perm le x l).mem_iff]
  simp

/-- Stable insertion preserves sortedness for a transitive total
comparison. -/
theorem pyInsert_pairwise {α : Type} (le : α → α → Bool)
    (htrans : ∀ a b c, le a b = true → le b c = true → le a c = true)
    (htotal : ∀ a b, le a b = true ∨ le b a = true) (x : α) :
    ∀ (l : List α), l.Pairwise (fun a b => le a b = true) →
      (pyInsert le x l).Pairwise (fun a b => le a b = true) := by
  intro l
  induction l with
  | nil => intro _; simp [pyInsert]
  | cons y ys ih =>
    intro h
    rcases List.pairwise_cons.mp h with ⟨hy, hys⟩
    rw [pyInsert]
    by_cases hxy : le x y = true
    · rw [if_pos hxy]
      refine List.Pairwise.cons ?_ h
      intro z hz
      rcases List.mem_cons.mp hz with rfl | hz
      · exact hxy
      · exact htrans x y z hxy (hy z hz)
    · rw [if_neg hxy]
      refine List.Pairwise.cons ?_ (ih hys)
      intro z hz
      rcases (mem_pyInsert le x z ys).mp hz with rfl | hz
      · rcases htotal z y with h | h
        · exact absurd h hxy
        · exact h
      · exact hy z hz

/-- The stable sort is sorted for a transitive total comparison. -/
theorem pySorted_pairwise {α : Type} (le : α → α → Bool)
    (htrans : ∀ a b c, le a b = true → le b c = true → le a c = true)
    (htotal : ∀ a b, le a b = true ∨ le b a = true) :
    ∀ (l : List α), (pySorted le l).Pairwise (fun a b => le a b = true) := by
  intro l
  induction l with
  | nil => simp [pySorted]
  | cons x xs ih =>
    rw [pySorted]
    exact pyInsert_pairwise le htrans htotal x _ ih

/-- The lexicographic tuple comparison is transitive. -/
theorem le4_trans (a b c : Int × Int × Int × Int)
    (h1 : Swiss.le4 a b = true) (h2 : Swiss.le4 b c = true) :
    Swiss.le4 a c = true := by
  simp only [Swiss.le4, Bool.or_eq_true, Bool.and_eq_true,
    decide_eq_true_eq, beq_iff_eq] at h1 h2 ⊢
  omega

/-- The lexicographic tuple comparison is total. -/
theorem le4_total (a b : Int × Int × Int × Int) :
    Swiss.le4 a b = true ∨ Swiss.le4 b a = true := by
  simp only [Swiss.le4, Bool.or_eq_true, Bool.and_eq_true,
    decide_eq_true_eq, beq_iff_eq]
  omega

/-- The canonical strict standings order: wins descending, then map
differential descending, then map wins descending, then seed
(per-tournament team_id) ascending. -/
def standLt (r1 r2 : Storage.StandRow) : Prop :=
  r2.wins < r1.wins ∨ (r1.wins = r2.wins ∧
    (r2.md < r1.md ∨ (r1.md = r2.md ∧
      (r2.map_wins < r1.map_wins ∨ (r1.map_wins = r2.map_wins ∧
        r1.team_id_for_tiebreak < r2.team_id_for_tiebreak)))))

/-- A non-strict key comparison between rows with distinct team ids is
strict. -/
theorem standLe_ne_strict (r1 r2 : Storage.StandRow)
    (hle : Swiss.le4 (Storage.standKey r1) (Storage.standKey r2) = true)
    (hne : r1.team_id_for_tiebreak ≠ r2.team_id_for_tiebreak) :
    standLt r1 r2 := by
  simp only [Swiss.le4, Storage.standKey, Bool.or_eq_true, Bool.and_eq_true,
    decide_eq_true_eq, beq_iff_eq] at hle
  unfold standLt
  omega

/-- **C4.** With per-tournament-unique team ids (the teams-table UNIQUE
constraint), compute_standings returns one aggregate row per mapped team,
pairwise strictly ordered by wins desc → map differential desc → map wins
desc → seed asc; the order is total (any two distinct rows are strictly
comparable, so no ties are possible), and ranked_team_ids reads the role
ids off exactly this order. -/
theorem C4_standings_total_order (db : DB) (phase : Option String)
    (hnd : (db.teams.map (·.team_id)).Nodup) :
    (Storage.compute_standings db phase).Perm
      (db.teams.map (Storage.standRow db phase)) ∧
    (Storage.compute_standings db phase).Pairwise standLt ∧
    (∀ r1 ∈ Storage.compute_standings db phase,
     ∀ r2 ∈ Storage.compute_standings db phase,
      r1.team_id_for_tiebreak ≠ r2.team_id_for_tiebreak →
      standLt r1 r2 ∨ standLt r2 r1) ∧
    Storage.ranked_team_ids db phase =
      (Storage.compute_standings db phase).map (·.team_role_id) := by
  have hperm : (Storage.compute_standings db phase).Perm
      (db.teams.map (Storage.standRow db phase)) := pySorted_perm _ _
  have hsorted := pySorted_pairwise
    (fun a b => Swiss.le4 (Storage.standKey a) (Storage.standKey b))
    (fun a b c => le4_trans _ _ _)
    (fun a b => le4_total _ _)
    (db.teams.map (Storage.standRow db phase))
  have htidnodup :
      ((Storage.compute_standings db phase).map
        (·.team_id_for_tiebreak)).Nodup := by
    have h1 : (db.teams.map (Storage.standRow db phase)).map
        (·.team_id_for_tiebreak) = db.teams.map (·.team_id) := by
      rw [List.map_map]
      rfl
    have h2 := (hperm.map (·.team_id_for_tiebreak)).nodup_iff.mpr
      (h1 ▸ hnd)
    exact h2
  have htidpw : (Storage.compute_standings db phase).Pairwise
      (fun r1 r2 => r1.team_id_for_tiebreak ≠ r2.team_id_for_tiebreak) :=
    List.pairwise_map.mp htidnodup
  have hstrict : (Storage.compute_standings db phase).Pairwise standLt := by
    have hand := List.Pairwise.and hsorted htidpw
    exact hand.imp (fun h => standLe_ne_strict _ _ h.1 h.2)
  refine ⟨hperm, hstrict, ?_, ?_⟩
  · have hsym : ∀ r1 ∈ Storage.compute_standings db phase,
        ∀ r2 ∈ Storage.compute_standings db phase,
        r1.team_id_for_tiebreak ≠ r2.team_id_for_tiebreak →
        Swiss.le4 (Storage.standKey r1) (Storage.standKey r2) = true →
        standLt r1 r2 := fun r1 _ r2 _ hne hle => standLe_ne_strict r1 r2 hle hne
    intro r1 h1 r2 h2 hne
    rcases le4_total (Storage.standKey r1) (Storage.standKey r2) with h | h
    · exact Or.inl (standLe_ne_strict r1 r2 h hne)
    · exact Or.inr (standLe_ne_strict r2 r1 h (Ne.symm hne))
  · unfold Storage.ranked_team_ids
    by_cases hne : Storage.compute_standings db phase ≠ []
    · rw [if_pos hne]
    · rw [if_neg hne]
      push_neg at hne
      rw [hne]
      have hteams : db.teams = [] := by
        have := hperm.length_eq
        rw [hne] at this
        simp only [List.length_nil, List.length_map] at this
        exact List.eq_nil_of_length_eq_zero this.symm
      rw [hteams]
      simp [pySorted]

/-- Witness for C4 at a concrete two-team state. -/
theorem C4_standings_total_order_witness :
    ((reportedOne.teams.map (·.team_id)).Nodup : Prop) ∧
    (Storage.compute_standings reportedOne none).Perm
      (reportedOne.teams.map (Storage.standRow reportedOne none)) :=
  ⟨by decide, (C4_standings_total_order reportedOne none (by decide)).1⟩

/-- Flattening distributes over pairing-list append. -/
theorem pairsFlatten_append (M1 M2 : List (Nat × Nat)) :
    pairsFlatten (M1 ++ M2) = pairsFlatten M1 ++ pairsFlatten M2 := by
  simp [pairsFlatten]

/-- Flattening a pairing list with a distinguished pair permutes to that
pair's two teams in front. -/
theorem pairsFlatten_middle (M1 M2 : List (Nat × Nat)) (x y : Nat) :
    (pairsFlatten (M1 ++ (x, y) :: M2)).Perm
      (x :: y :: pairsFlatten (M1 ++ M2)) := by
  rw [pairsFlatten_append, pairsFlatten_append]
  have h1 : pairsFlatten ((x, y) :: M2) = x :: y :: pairsFlatten M2 := rfl
  rw [h1]
  exact List.Perm.trans List.perm_middle (List.Perm.cons x List.perm_middle)

/-- If the candidate scan of the DFS succeeds, it picked some allowed
partner whose removal leaves a completable remainder. -/
theorem pbTry_some_char (opp : Nat → Nat → Bool) (a : Nat) :
    ∀ (cand tried : List Nat) (out : List (Nat × Nat)),
      Swiss.pbTry opp a tried cand = some out →
      ∃ pre b post out2, cand = pre ++ b :: post ∧ opp a b = false ∧
        Swiss.pbDfs opp (tried ++ (pre ++ post)) = some out2 ∧
        out = (a, b) :: out2 := by
  intro cand
  induction cand with
  | nil =>
    intro tried out h
    simp [Swiss.pbTry] at h
  | cons b post ih =>
    intro tried out h
    simp only [Swiss.pbTry] at h
    by_cases hab : opp a b = true
    · rw [if_pos hab] at h
      rcases ih (tried ++ [b]) out h with ⟨pre, b2, post2, out2, hc, hop, hdfs, hout⟩
      refine ⟨b :: pre, b2, post2, out2, by simp [hc], hop, ?_, hout⟩
      have : tried ++ [b] ++ (pre ++ post2) = tried ++ (b :: pre ++ post2) := by
        simp
      rw [this] at hdfs
      exact hdfs
    · rw [if_neg hab] at h
      cases hdfs : Swiss.pbDfs opp (tried ++ post) with
      | some out2 =>
        rw [hdfs] at h
        refine ⟨[], b, post, out2, rfl, Bool.eq_false_iff.mpr hab, ?_, ?_⟩
        · simpa using hdfs
        · injection h with h
          exact h.symm
      | none =>
        rw [hdfs] at h
        rcases ih (tried ++ [b]) out h with ⟨pre, b2, post2, out2, hc, hop, hdfs2, hout⟩
        refine ⟨b :: pre, b2, post2, out2, by simp [hc], hop, ?_, hout⟩
        have : tried ++ [b] ++ (pre ++ post2) = tried ++ (b :: pre ++ post2) := by
          simp
        rw [this] at hdfs2
        exact hdfs2

/-- Soundness of the pairing DFS: any returned pairing uses only allowed
pairs and covers exactly the input group. -/
theorem pbDfs_sound (opp : Nat → Nat → Bool) (l : List Nat)
    (out : List (Nat × Nat)) (h : Swiss.pbDfs opp l = some out) :
    (∀ p ∈ out, opp p.1 p.2 = false) ∧ (pairsFlatten out).Perm l := by
  match l with
  | [] =>
    simp [Swiss.pbDfs] at h
    subst h
    exact ⟨by simp, by simp [pairsFlatten]⟩
  | a :: rest =>
    rw [Swiss.pbDfs] at h
    rcases pbTry_some_char opp a rest [] out h with
      ⟨pre, b, post, out2, hc, hop, hdfs, hout⟩
    rw [List.nil_append] at hdfs
    have hlen : (pre ++ post).length < (a :: rest).length := by
      have := congrArg List.length hc
      simp only [List.length_append, List.length_cons] at this ⊢
      omega
    have ih := pbDfs_sound opp (pre ++ post) out2 hdfs
    subst hout
    constructor
    · intro p hp
      rcases List.mem_cons.mp hp with rfl | hp
      · exact Bool.eq_false_iff.mpr (by simpa using hop)
      · exact ih.1 p hp
    · have h1 : pairsFlatten ((a, b) :: out2) =
          a :: b :: pairsFlatten out2 := rfl
      rw [h1, hc]
      exact List.Perm.trans
        (List.Perm.cons a (List.Perm.cons b ih.2))
        (List.Perm.cons a List.perm_middle.symm)
termination_by l.length

/-- If the candidate scan fails, every split of the candidate list either
hits a forbidden partner or an uncompletable remainder. -/
theorem pbTry_none_char (opp : Nat → Nat → Bool) (a : Nat) :
    ∀ (cand tried : List Nat), Swiss.pbTry opp a tried cand = none →
      ∀ (pre : List Nat) (b : Nat) (post : List Nat), cand = pre ++ b :: post →
        opp a b = true ∨ Swiss.pbDfs opp (tried ++ (pre ++ post)) = none := by
  intro cand
  induction cand with
  | nil =>
    intro tried _ pre b post hc
    cases pre <;> simp at hc
  | cons c cand2 ih =>
    intro tried h pre b post hc
    simp only [Swiss.pbTry] at h
    by_cases hac : opp a c = true
    · rw [if_pos hac] at h
      cases pre with
      | nil =>
        simp only [List.nil_append, List.cons.injEq] at hc
        exact Or.inl (hc.1 ▸ hac)
      | cons p0 pre2 =>
        simp only [List.cons_append, List.cons.injEq] at hc
        rcases hc with ⟨rfl, hc2⟩
        rcases ih (tried ++ [c]) h pre2 b post hc2 with hl | hr
        · exact Or.inl hl
        · right
          have : tried ++ [c] ++ (pre2 ++ post) = tried ++ (c :: pre2 ++ post) := by
            simp
          rw [this] at hr
          exact hr
    · rw [if_neg hac] at h
      cases hdfs : Swiss.pbDfs opp (tried ++ cand2) with
      | some out => rw [hdfs] at h; cases h
      | none =>
        rw [hdfs] at h
        cases pre with
        | nil =>
          simp only [List.nil_append, List.cons.injEq] at hc
          rcases hc with ⟨rfl, rfl⟩
          right
          simpa using hdfs
        | cons p0 pre2 =>
          simp only [List.cons_append, List.cons.injEq] at hc
          rcases hc with ⟨rfl, hc2⟩
          rcases ih (tried ++ [c]) h pre2 b post hc2 with hl | hr
          · exact Or.inl hl
          · right
            have : tried ++ [c] ++ (pre2 ++ post) = tried ++ (c :: pre2 ++ post) := by
              simp
            rw [this] at hr
            exact hr

/-- Completeness of the pairing DFS for a symmetric forbidden-pair
relation: on a duplicate-free group admitting some perfect matching that
avoids every forbidden pair, the DFS does not fail. -/
theorem pbDfs_complete (opp : Nat → Nat → Bool)
    (hsymm : ∀ x y, opp x y = opp y x) (l : List Nat) (hnd : l.Nodup)
    (M : List (Nat × Nat)) (hM : (pairsFlatten M).Perm l)
    (hMok : ∀ p ∈ M, opp p.1 p.2 = false) :
    Swiss.pbDfs opp l ≠ none := by
  match l with
  | [] => simp [Swiss.pbDfs]
  | a :: rest =>
    have ha : a ∈ pairsFlatten M := hM.mem_iff.mpr (List.mem_cons_self a rest)
    obtain ⟨x, y, hxyM, hax⟩ : ∃ x y, (x, y) ∈ M ∧ (a = x ∨ a = y) := by
      simp only [pairsFlatten, List.mem_flatten, List.mem_map] at ha
      rcases ha with ⟨l2, ⟨p, hpM, hpl⟩, hal⟩
      subst hpl
      rcases List.mem_cons.mp hal with h | h
      · exact ⟨p.1, p.2, by simpa using hpM, Or.inl h⟩
      · exact ⟨p.1, p.2, by simpa using hpM,
          Or.inr (by simpa using List.mem_singleton.mp h)⟩
    rcases List.append_of_mem hxyM with ⟨M1, M2, rfl⟩
    have hmid := pairsFlatten_middle M1 M2 x y
    have hlperm : (a :: rest).Perm (x :: y :: pairsFlatten (M1 ++ M2)) :=
      (hM.symm.trans hmid)
    have hxyne : x ≠ y := by
      have hndf : (pairsFlatten (M1 ++ (x, y) :: M2)).Nodup :=
        hM.nodup_iff.mpr hnd
      have := hmid.nodup_iff.mp hndf
      rcases List.nodup_cons.mp this with ⟨hxny, _⟩
      intro hxy
      exact hxny (hxy ▸ List.mem_cons_self y _)
    have hMok2 : ∀ p ∈ M1 ++ M2, opp p.1 p.2 = false := by
      intro p hp
      rcases List.mem_append.mp hp with h | h
      · exact hMok p (List.mem_append.mpr (Or.inl h))
      · exact hMok p (List.mem_append.mpr (Or.inr (List.mem_cons_of_mem _ h)))
    have hopxy : opp x y = false := hMok (x, y) hxyM
    -- the partner of a in the matching
    rcases hax with rfl | rfl
    · -- a = x, partner y
      have hyrest : y ∈ rest := by
        have hy : y ∈ a :: rest :=
          hlperm.mem_iff.mpr (List.mem_cons_of_mem _ (List.mem_cons_self _ _))
        rcases List.mem_cons.mp hy with h | h
        · exact absurd h.symm hxyne
        · exact h
      have hrestperm : rest.Perm (y :: pairsFlatten (M1 ++ M2)) :=
        (List.Perm.cons_inv hlperm)
      rcases List.append_of_mem hyrest with ⟨pre, post, rfl⟩
      have hpp : (pre ++ post).Perm (pairsFlatten (M1 ++ M2)) := by
        have h2 : (y :: (pre ++ post)).Perm
            (y :: pairsFlatten (M1 ++ M2)) :=
          List.Perm.trans List.perm_middle.symm hrestperm
        exact List.Perm.cons_inv h2
      have hsub : (pre ++ post).Sublist (pre ++ y :: post) :=
        List.Sublist.append (List.Sublist.refl pre) (List.sublist_cons_self y post)
      have hndpp : (pre ++ post).Nodup :=
        (List.nodup_cons.mp hnd).2.sublist hsub
      have hlen : (pre ++ post).length < (a :: (pre ++ y :: post)).length := by
        simp only [List.length_append, List.length_cons]
        omega
      have ihne := pbDfs_complete opp hsymm (pre ++ post) hndpp (M1 ++ M2)
        hpp.symm hMok2
      intro hnone
      rw [Swiss.pbDfs] at hnone
      rcases pbTry_none_char opp a _ [] hnone pre y post rfl with h | h
      · rw [h] at hopxy; cases hopxy
      · rw [List.nil_append] at h
        exact ihne h
    · -- a = y, partner x
      have hxrest : x ∈ rest := by
        have hx : x ∈ a :: rest :=
          hlperm.mem_iff.mpr (List.mem_cons_self _ _)
        rcases List.mem_cons.mp hx with h | h
        · exact absurd h hxyne
        · exact h
      have hswap : (a :: rest).Perm (a :: x :: pairsFlatten (M1 ++ M2)) :=
        hlperm.trans (List.Perm.swap a x _)
      have hrestperm : rest.Perm (x :: pairsFlatten (M1 ++ M2)) :=
        List.Perm.cons_inv hswap
      have hopax : opp a x = false := by
        rw [hsymm a x]
        exact hopxy
      rcases List.append_of_mem hxrest with ⟨pre, post, rfl⟩
      have hpp : (pre ++ post).Perm (pairsFlatten (M1 ++ M2)) := by
        have h2 : (x :: (pre ++ post)).Perm
            (x :: pairsFlatten (M1 ++ M2)) :=
          List.Perm.trans List.perm_middle.symm hrestperm
        exact List.Perm.cons_inv h2
      have hsub : (pre ++ post).Sublist (pre ++ x :: post) :=
        List.Sublist.append (List.Sublist.refl pre) (List.sublist_cons_self x post)
      have hndpp : (pre ++ post).Nodup :=
        (List.nodup_cons.mp hnd).2.sublist hsub
      have hlen : (pre ++ post).length < (a :: (pre ++ x :: post)).length := by
        simp only [List.length_append, List.length_cons]
        omega
      have ihne := pbDfs_complete opp hsymm (pre ++ post) hndpp (M1 ++ M2)
        hpp.symm hMok2
      intro hnone
      rw [Swiss.pbDfs] at hnone
      rcases pbTry_none_char opp a _ [] hnone pre x post rfl with h | h
      · rw [h] at hopax; cases hopax
      · rw [List.nil_append] at h
        exact ihne h
termination_by l.length

/-- previous_opponents is symmetric (both directions are inserted). -/
theorem metB_symm (history : List MatchRow) (x y : Nat) :
    Swiss.metB history x y = Swiss.metB history y x := by
  unfold Swiss.metB
  congr 1
  funext h
  rw [Bool.or_comm]

/-- A swiss-phase row for the C3 counterexample history. -/
def swissRow (mid : Nat) (a b : Nat) (sa sb : Option Int) (rep : Bool) :
    MatchRow :=
  { match_id := mid, phase := some "swiss", round_no := some 1,
    team_a := some a, team_b := some b, score_a := sa, score_b := sb,
    reported := rep }

/-- History for the C3 counterexample: team 1 beat team 3 and team 2 beat
team 4 (reported), while 1–2 and 3–4 have already met (unreported rows,
which still count as previous opponents). -/
def cexHist : List MatchRow :=
  [swissRow 1 1 3 (some 1) (some 0) true,
   swissRow 2 2 4 (some 1) (some 0) true,
   swissRow 3 1 2 none none false,
   swissRow 4 3 4 none none false]

/-- **C3 (counterexample).** The pool [1,2,3,4] with history `cexHist`
admits the repeat-free perfect matching (1,4),(2,3): yet pair_next_round
groups 1,2 (one win each) apart from 3,4 (one loss each), finds no
repeat-free pairing inside either group, and greedily outputs (1,2),(3,4) —
both previously-met pairs — although no repeat was mathematically
unavoidable. -/
theorem C3_cex :
    (∃ M : List (Nat × Nat), (pairsFlatten M).Perm [1, 2, 3, 4] ∧
      ∀ p ∈ M, Swiss.metB cexHist p.1 p.2 = false) ∧
    Swiss.pair_next_round [1, 2, 3, 4] cexHist = [(1, 2), (3, 4)] ∧
    Swiss.metB cexHist 1 2 = true ∧ Swiss.metB cexHist 3 4 = true := by
  refine ⟨⟨[(1, 4), (2, 3)], by decide, by decide⟩, ?_, by decide, by decide⟩
  simp [Swiss.pair_next_round, Swiss.buckets, Swiss.pnrLoop, Swiss.pnrStep,
    Swiss.pbDfs, Swiss.pbTry, Swiss.pnrCaseB, Swiss.pnrGreedy, pyDedup,
    pySorted, pyInsert, Swiss.wlKey, Swiss.wins, Swiss.losses, Swiss.keyLe,
    Swiss.igKey, Swiss.le4, Swiss.mapDiff, Swiss.metB, Swiss.truthy,
    Swiss.sa0, Swiss.sb0, cexHist, swissRow, List.filter, List.any,
    List.find?]

/-- **C3 (amended).** Within a single score group the backtracking search
is exact: whenever all teams share one (wins, losses) record and some
perfect matching of the (duplicate-free, even) pool avoids every
previously-met pair, pair_next_round returns a pairing with no
previously-met pair.  Across several score groups this fails: a repeat can
be produced even when a globally repeat-free perfect matching exists (see
the counterexample). -/
theorem C3_swiss_single_group_no_repeats (teams : List Nat)
    (history : List MatchRow) (hnd : teams.Nodup) (hne : teams ≠ [])
    (heven : teams.length % 2 = 0) (k : Nat × Nat)
    (hsame : ∀ t ∈ teams, Swiss.wlKey history t = k)
    (M : List (Nat × Nat)) (hM : (pairsFlatten M).Perm teams)
    (hMok : ∀ p ∈ M, Swiss.metB history p.1 p.2 = false) :
    ∀ p ∈ Swiss.pair_next_round teams history,
      Swiss.metB history p.1 p.2 = false := by
  have hb := buckets_single teams history hnd hne k hsame
  have hperm : (pySorted (fun a b => Swiss.le4 (Swiss.igKey history a)
      (Swiss.igKey history b)) teams).Perm teams := pySorted_perm _ teams
  have hnds := hperm.nodup_iff.mpr hnd
  have hMs : (pairsFlatten M).Perm
      (pySorted (fun a b => Swiss.le4 (Swiss.igKey history a)
        (Swiss.igKey history b)) teams) := hM.trans hperm.symm
  have hne2 := pbDfs_complete (Swiss.metB history) (metB_symm history) _
    hnds M hMs hMok
  cases hdfs : Swiss.pbDfs (Swiss.metB history)
      (pySorted (fun a b => Swiss.le4 (Swiss.igKey history a)
        (Swiss.igKey history b)) teams) with
  | none => exact absurd hdfs hne2
  | some out =>
    have hloop := pnrLoop_single_even (Swiss.metB history) _
      (by rw [hperm.length_eq]; exact heven) out hdfs
    unfold Swiss.pair_next_round
    rw [hb, hloop]
    exact (pbDfs_sound _ _ out hdfs).1

/-- Witness for C3's amended theorem at the pool [1,2] with empty
history: the produced pairing is [(1,2)] and that pair is repeat-free. -/
theorem C3_swiss_single_group_witness :
    Swiss.pair_next_round [1, 2] [] = [(1, 2)] ∧
    Swiss.metB [] (1 : Nat) (2 : Nat) = false := by
  have hpnr : Swiss.pair_next_round [1, 2] [] = [(1, 2)] := by
    simp [Swiss.pair_next_round, Swiss.buckets, Swiss.pnrLoop, Swiss.pnrStep,
      Swiss.pbDfs, Swiss.pbTry, Swiss.pnrCaseB, Swiss.pnrGreedy, pyDedup,
      pySorted, pyInsert, Swiss.wlKey, Swiss.wins, Swiss.losses, Swiss.keyLe,
      Swiss.igKey, Swiss.le4, Swiss.mapDiff, Swiss.metB, Swiss.truthy,
      Swiss.sa0, Swiss.sb0, List.filter, List.any, List.find?]
  refine ⟨hpnr, ?_⟩
  exact C3_swiss_single_group_no_repeats [1, 2] [] (by decide) (by decide)
    (by decide) (0, 0) (by decide) [(1, 2)] (by decide) (by decide) (1, 2)
    (by rw [hpnr]; exact List.mem_singleton.mpr rfl)

/-- The per-row effect of a batch of placeholder assignments (one
assign_pairs_into_round transaction): apply each UPDATE in order. -/
def applyUpd (phase : String) (r : Nat) (L : List (Nat × (Nat × Nat)))
    (m : MatchRow) : MatchRow :=
  L.foldl (fun m mp =>
    if m.match_id == mp.1 && Storage.inRound phase r m then
      { m with team_a := some mp.2.1, team_b := some mp.2.2 }
    else m) m

/-- The writes reported by a do_swiss outcome. -/
def swissWrites (o : Main.SwissOutcome) : List (Nat × Nat × Nat) :=
  match o with
  | Main.SwissOutcome.filled ws => ws
  | _ => []

/-- Unfolding one update of the batch. -/
theorem applyUpd_cons (phase : String) (r : Nat) (x : Nat × (Nat × Nat))
    (L : List (Nat × (Nat × Nat))) (m : MatchRow) :
    applyUpd phase r (x :: L) m =
      applyUpd phase r L
        (if m.match_id == x.1 && Storage.inRound phase r m then
          { m with team_a := some x.2.1, team_b := some x.2.2 } else m) := rfl

/-- The empty batch changes nothing. -/
theorem applyUpd_nil (phase : String) (r : Nat) (m : MatchRow) :
    applyUpd phase r [] m = m := rfl

/-- Folding assignOne over updates acts row-wise as applyUpd and leaves the
teams table alone. -/
theorem foldl_assignOne_eq_map (phase : String) (r : Nat) :
    ∀ (L : List (Nat × (Nat × Nat))) (db : DB),
      (L.foldl (Storage.assignOne phase r) db).matchRows =
        db.matchRows.map (applyUpd phase r L) ∧
      (L.foldl (Storage.assignOne phase r) db).teams = db.teams := by
  intro L
  induction L with
  | nil =>
    intro db
    constructor
    · rw [List.foldl_nil]
      have h1 : db.matchRows.map (applyUpd phase r []) = db.matchRows := by
        rw [List.map_congr_left (fun m _ => applyUpd_nil phase r m)]
        exact List.map_id _
      rw [h1]
    · rfl
  | cons x L2 ih =>
    intro db
    rcases ih (Storage.assignOne phase r db x) with ⟨h1, h2⟩
    constructor
    · rw [List.foldl_cons, h1]
      show (Storage.assignOne phase r db x).matchRows.map _ = _
      unfold Storage.assignOne
      rw [List.map_map]
      apply List.map_congr_left
      intro m _
      exact (applyUpd_cons phase r x L2 m).symm
    · rw [List.foldl_cons, h2]
      rfl

/-- applyUpd only touches the two team slots. -/
theorem applyUpd_fields (phase : String) (r : Nat) :
    ∀ (L : List (Nat × (Nat × Nat))) (m : MatchRow),
      (applyUpd phase r L m).match_id = m.match_id ∧
      (applyUpd phase r L m).phase = m.phase ∧
      (applyUpd phase r L m).round_no = m.round_no ∧
      (applyUpd phase r L m).reported = m.reported ∧
      (applyUpd phase r L m).score_a = m.score_a ∧
      (applyUpd phase r L m).score_b = m.score_b := by
  intro L
  induction L with
  | nil => intro m; rw [applyUpd_nil]; exact ⟨rfl, rfl, rfl, rfl, rfl, rfl⟩
  | cons x L2 ih =>
    intro m
    rw [applyUpd_cons]
    by_cases hc : (m.match_id == x.1 && Storage.inRound phase r m) = true
    · rw [if_pos hc]
      exact ih { m with team_a := some x.2.1, team_b := some x.2.2 }
    · rw [if_neg hc]
      exact ih m

/-- applyUpd never blanks a team slot. -/
theorem applyUpd_team_some (phase : String) (r : Nat) :
    ∀ (L : List (Nat × (Nat × Nat))) (m : MatchRow),
      (m.team_a ≠ none → (applyUpd phase r L m).team_a ≠ none) ∧
      (m.team_b ≠ none → (applyUpd phase r L m).team_b ≠ none) := by
  intro L
  induction L with
  | nil => intro m; rw [applyUpd_nil]; exact ⟨fun h => h, fun h => h⟩
  | cons x L2 ih =>
    intro m
    rw [applyUpd_cons]
    by_cases hc : (m.match_id == x.1 && Storage.inRound phase r m) = true
    · rw [if_pos hc]
      have h2 := ih { m with team_a := some x.2.1, team_b := some x.2.2 }
      exact ⟨fun _ => h2.1 (by simp), fun _ => h2.2 (by simp)⟩
    · rw [if_neg hc]
      exact ih m

/-- An untargeted row is unchanged by applyUpd. -/
theorem applyUpd_id_of_no_cond (phase : String) (r : Nat) :
    ∀ (L : List (Nat × (Nat × Nat))) (m : MatchRow),
      (∀ mp ∈ L, (m.match_id == mp.1 && Storage.inRound phase r m) = false) →
      applyUpd phase r L m = m := by
  intro L
  induction L with
  | nil => intro m _; rfl
  | cons x L2 ih =>
    intro m h
    have hx := h x (List.mem_cons_self _ _)
    rw [applyUpd_cons, if_neg (by rw [hx]; simp)]
    exact ih m (fun mp hmp => h mp (List.mem_cons_of_mem _ hmp))

/-- A row targeted by some update of the batch ends with both team slots
filled (the condition only reads fields applyUpd preserves). -/
theorem applyUpd_cond_some (phase : String) (r : Nat) :
    ∀ (L : List (Nat × (Nat × Nat))) (m : MatchRow),
      (∃ mp ∈ L, (m.match_id == mp.1 && Storage.inRound phase r m) = true) →
      (applyUpd phase r L m).team_a ≠ none ∧
      (applyUpd phase r L m).team_b ≠ none := by
  intro L
  induction L with
  | nil => intro m h; rcases h with ⟨mp, hmp, _⟩; cases hmp
  | cons x L2 ih =>
    intro m h
    rw [applyUpd_cons]
    by_cases hc : (m.match_id == x.1 && Storage.inRound phase r m) = true
    · rw [if_pos hc]
      have hsome := applyUpd_team_some phase r L2
        { m with team_a := some x.2.1, team_b := some x.2.2 }
      exact ⟨hsome.1 (by simp), hsome.2 (by simp)⟩
    · rw [if_neg hc]
      rcases h with ⟨mp, hmp, hcond⟩
      rcases List.mem_cons.mp hmp with rfl | hmp2
      · exact absurd hcond hc
      · exact ih m ⟨mp, hmp2, hcond⟩

/-- Every member of a list is the left component of some zip entry when the
right list is long enough. -/
theorem mem_zip_left_of_mem {α β : Type} (l1 : List α) (l2 : List β) (a : α)
    (ha : a ∈ l1) (hlen : l1.length = l2.length) :
    ∃ p ∈ l1.zip l2, p.1 = a := by
  rcases List.mem_iff_getElem.mp ha with ⟨i, hi, hgi⟩
  have hiz : i < (l1.zip l2).length := by
    rw [List.length_zip]
    omega
  refine ⟨(l1.zip l2)[i], List.getElem_mem hiz, ?_⟩
  rw [List.getElem_zip]
  exact hgi

/-- A row-wise team-slot rewrite leaves every read that only touches
phase/round/reported/id unchanged. -/
theorem readers_stable (db db2 : DB) (F : MatchRow → MatchRow)
    (hmap : db2.matchRows = db.matchRows.map F)
    (hF : ∀ m, (F m).match_id = m.match_id ∧ (F m).phase = m.phase ∧
      (F m).round_no = m.round_no ∧ (F m).reported = m.reported) :
    (∀ r phase, Storage.is_round_fully_reported db2 r phase =
      Storage.is_round_fully_reported db r phase) ∧
    (∀ phase, Storage.get_latest_fully_reported_round db2 phase =
      Storage.get_latest_fully_reported_round db phase) ∧
    (∀ r phase, Storage.round_exists db2 r phase =
      Storage.round_exists db r phase) := by
  have hin : ∀ phase r, (Storage.inRound phase r ∘ F) =
      Storage.inRound phase r := by
    intro phase r
    funext m
    show Storage.inRound phase r (F m) = Storage.inRound phase r m
    unfold Storage.inRound
    rw [(hF m).2.1, (hF m).2.2.1]
  have hrep : ((fun m => m.reported) ∘ F) = (fun (m : MatchRow) => m.reported) := by
    funext m
    exact (hF m).2.2.2
  have hfull : ∀ r phase, Storage.is_round_fully_reported db2 r phase =
      Storage.is_round_fully_reported db r phase := by
    intro r phase
    unfold Storage.is_round_fully_reported
    dsimp only
    rw [hmap, List.filter_map, hin, List.length_map, List.all_map, hrep]
  refine ⟨hfull, ?_, ?_⟩
  · intro phase
    unfold Storage.get_latest_fully_reported_round
    rw [hmap, List.filterMap_map]
    have h1 : ((fun m => if m.phase == some phase then m.round_no else none) ∘ F) =
        (fun (m : MatchRow) => if m.phase == some phase then m.round_no else none) := by
      funext m
      show (if (F m).phase == some phase then (F m).round_no else none) = _
      rw [(hF m).2.1, (hF m).2.2.1]
    rw [h1]
    congr 1
    apply List.filter_congr
    intro r _
    rw [hfull r phase]
  · intro r phase
    unfold Storage.round_exists
    rw [hmap, List.any_map, hin]

/-- do_swiss can only return `filled` after all guards pass; the resulting
database is the placeholder-assignment fold over the previous one. -/
theorem do_swiss_filled_spec (db : DB) (ws : List (Nat × Nat × Nat)) (db2 : DB)
    (h : Main.do_swiss db = (Main.SwissOutcome.filled ws, db2)) :
    ∃ latest pairs,
      Storage.get_latest_fully_reported_round db "swiss" = some latest ∧
      latest ≠ 0 ∧
      Storage.round_exists db (latest + 1) "swiss" = true ∧
      Storage.round_has_placeholders db (latest + 1) "swiss" = true ∧
      pairs.length =
        (Storage.list_round_placeholders db (latest + 1) "swiss").length ∧
      db2 = ((Storage.list_round_placeholders db (latest + 1) "swiss").zip
        pairs).foldl (Storage.assignOne "swiss" (latest + 1)) db := by
  unfold Main.do_swiss at h
  rcases hl : Storage.get_latest_fully_reported_round db "swiss" with _ | latest
  · rw [hl] at h
    simp at h
  · rw [hl] at h
    dsimp only at h
    by_cases h0 : latest = 0
    · rw [if_pos h0] at h
      simp at h
    · rw [if_neg h0] at h
      by_cases h1 : Storage.round_exists db (latest + 1) "swiss" = true
      · rw [if_neg (not_not_intro h1)] at h
        by_cases h2 : Storage.round_has_placeholders db (latest + 1) "swiss" = true
        · rw [if_neg (not_not_intro h2)] at h
          by_cases h3 : (Swiss.pair_next_round
              (Main.collectTeams (Storage.list_round_matches db latest "swiss"))
              (Storage.swiss_history db)).length ≠
              (Storage.list_round_placeholders db (latest + 1) "swiss").length
          · rw [if_pos h3] at h
            simp at h
          · rw [if_neg h3] at h
            push_neg at h3
            rcases hassign : Storage.assign_pairs_into_round db (latest + 1)
                (Swiss.pair_next_round
                  (Main.collectTeams (Storage.list_round_matches db latest "swiss"))
                  (Storage.swiss_history db)) "swiss" with e | dbx
            · rw [hassign] at h
              simp at h
            · rw [hassign] at h
              have hdb2 : db2 = dbx := by
                have := congrArg Prod.snd h
                exact this.symm
              unfold Storage.assign_pairs_into_round at hassign
              rw [if_neg (by omega)] at hassign
              injection hassign with hassign
              refine ⟨latest, Swiss.pair_next_round
                (Main.collectTeams (Storage.list_round_matches db latest "swiss"))
                (Storage.swiss_history db), rfl, h0, h1, h2, h3, ?_⟩
              rw [hdb2, hassign]
        · rw [if_pos h2] at h
          simp at h
      · rw [if_pos h1] at h
        simp at h

/-- After a full placeholder assignment (pair count matching placeholder
count), the round has no empty placeholders left. -/
theorem assign_covers_placeholders (db : DB) (next : Nat)
    (pairs : List (Nat × Nat))
    (hlen : pairs.length =
      (Storage.list_round_placeholders db next "swiss").length) :
    Storage.round_has_placeholders
      (((Storage.list_round_placeholders db next "swiss").zip pairs).foldl
        (Storage.assignOne "swiss" next) db) next "swiss" = false := by
  have hmap := (foldl_assignOne_eq_map "swiss" next
    ((Storage.list_round_placeholders db next "swiss").zip pairs) db).1
  unfold Storage.round_has_placeholders
  rw [hmap, List.any_map, List.any_eq_false]
  intro m hm
  set L := (Storage.list_round_placeholders db next "swiss").zip pairs with hL
  intro hpred
  rcases Bool.and_eq_true _ _ |>.mp hpred with ⟨hpred2, hbn⟩
  rcases Bool.and_eq_true _ _ |>.mp hpred2 with ⟨hinr, han⟩
  have hfields := applyUpd_fields "swiss" next L m
  have hinm : Storage.inRound "swiss" next m = true := by
    unfold Storage.inRound at hinr ⊢
    rw [hfields.2.1, hfields.2.2.1] at hinr
    exact hinr
  have hsome := applyUpd_team_some "swiss" next L m
  have hman : m.team_a = none := by
    by_contra hcontra
    exact hsome.1 hcontra (by simpa using han)
  have hmbn : m.team_b = none := by
    by_contra hcontra
    exact hsome.2 hcontra (by simpa using hbn)
  have hq : (Storage.inRound "swiss" next m && m.team_a == none &&
      m.team_b == none) = true := by
    simp [hinm, hman, hmbn]
  have hmemphs : m.match_id ∈ Storage.list_round_placeholders db next "swiss" := by
    unfold Storage.list_round_placeholders
    rw [(pySorted_perm _ _).mem_iff]
    exact List.mem_map.mpr ⟨m, List.mem_filter.mpr ⟨hm, hq⟩, rfl⟩
  obtain ⟨mp, hmpL, hmp1⟩ := mem_zip_left_of_mem
    (Storage.list_round_placeholders db next "swiss") pairs m.match_id
    hmemphs hlen.symm
  have hcond : (m.match_id == mp.1 && Storage.inRound "swiss" next m) = true := by
    simp [hmp1, hinm]
  have := (applyUpd_cond_some "swiss" next L m ⟨mp, hmpL, hcond⟩).1
  exact this (by simpa using han)

/-- Default row used as the `getD` fallback when comparing databases
row by row. -/
def dummyRow : MatchRow := { match_id := 0 }

/-- **C8.** The advancement resolver is idempotent. Given unique match ids
(the table's primary key), (1) a second Swiss refresh right after a first
one reports zero team-assignment writes, (2) a refresh never adds or drops
rows, (3) any row a refresh changes had both team slots unset beforehand,
and (4) the double-elimination refresh never writes at all (see C1). -/
theorem C8_resolver_idempotent (db : DB)
    (hnd : (db.matchRows.map (fun m => m.match_id)).Nodup) :
    swissWrites (Main.do_swiss (Main.do_swiss db).2).1 = [] ∧
    (Main.do_swiss db).2.matchRows.length = db.matchRows.length ∧
    (∀ i, i < db.matchRows.length →
      (Main.do_swiss db).2.matchRows.getD i dummyRow ≠
        db.matchRows.getD i dummyRow →
      (db.matchRows.getD i dummyRow).team_a = none ∧
      (db.matchRows.getD i dummyRow).team_b = none) ∧
    (Main.do_de db).2 = db := by
  by_cases hfil : ∃ ws db2, Main.do_swiss db = (Main.SwissOutcome.filled ws, db2)
  · obtain ⟨ws, db2, heq⟩ := hfil
    obtain ⟨latest, pairs, hl, h0, hex, hph, hlen, hdb2⟩ :=
      do_swiss_filled_spec db ws db2 heq
    have h2snd : (Main.do_swiss db).2 = db2 := by rw [heq]
    set L := (Storage.list_round_placeholders db (latest + 1) "swiss").zip pairs
      with hLdef
    have hmapteams := foldl_assignOne_eq_map "swiss" (latest + 1) L db
    have hmap : db2.matchRows =
        db.matchRows.map (applyUpd "swiss" (latest + 1) L) := by
      rw [hdb2]
      exact hmapteams.1
    have hFfields := fun m => applyUpd_fields "swiss" (latest + 1) L m
    have hstable := readers_stable db db2 (applyUpd "swiss" (latest + 1) L)
      hmap (fun m => ⟨(hFfields m).1, (hFfields m).2.1, (hFfields m).2.2.1,
        (hFfields m).2.2.2.1⟩)
    have hl2 : Storage.get_latest_fully_reported_round db2 "swiss" =
        some latest := by
      rw [hstable.2.1 "swiss"]
      exact hl
    have hex2 : Storage.round_exists db2 (latest + 1) "swiss" = true := by
      rw [hstable.2.2 (latest + 1) "swiss"]
      exact hex
    have hph2 : Storage.round_has_placeholders db2 (latest + 1) "swiss" =
        false := by
      rw [hdb2]
      exact assign_covers_placeholders db (latest + 1) pairs hlen
    have hrun2 : Main.do_swiss db2 =
        (Main.SwissOutcome.noPlaceholders (latest + 1), db2) := by
      unfold Main.do_swiss
      rw [hl2]
      dsimp only
      rw [if_neg h0, if_neg (not_not_intro hex2),
        if_pos (by rw [hph2]; simp)]
    refine ⟨?_, ?_, ?_, (do_de_stuck db).1⟩
    · rw [h2snd, hrun2]
      rfl
    · rw [h2snd, hmap, List.length_map]
    · intro i hi hne
      rw [h2snd] at hne
      have hgd2 : db2.matchRows.getD i dummyRow =
          applyUpd "swiss" (latest + 1) L (db.matchRows.getD i dummyRow) := by
        rw [List.getD_eq_getElem?_getD, List.getD_eq_getElem?_getD, hmap,
          List.getElem?_map, List.getElem?_eq_getElem hi]
        rfl
      rw [hgd2] at hne
      have hmem : db.matchRows.getD i dummyRow ∈ db.matchRows := by
        rw [List.getD_eq_getElem _ _ hi]
        exact List.getElem_mem hi
      generalize hmdef : db.matchRows.getD i dummyRow = m at hne hmem ⊢
      have hcond : ∃ mp ∈ L, (m.match_id == mp.1 &&
          Storage.inRound "swiss" (latest + 1) m) = true := by
        by_contra hno
        push_neg at hno
        exact hne (applyUpd_id_of_no_cond "swiss" (latest + 1) L m
          (fun mp hmp => Bool.eq_false_iff.mpr (hno mp hmp)))
      obtain ⟨mp, hmpL, hcondt⟩ := hcond
      obtain ⟨pid, pr⟩ := mp
      rcases Bool.and_eq_true _ _ |>.mp hcondt with ⟨hmid, hinr⟩
      have hmid2 : m.match_id = pid := by simpa using hmid
      have hpid : pid ∈ Storage.list_round_placeholders db (latest + 1)
          "swiss" := (List.of_mem_zip hmpL).1
      have hpidX : pid ∈ (db.matchRows.filter (fun m2 =>
          Storage.inRound "swiss" (latest + 1) m2 && m2.team_a == none &&
          m2.team_b == none)).map (fun m2 => m2.match_id) := by
        unfold Storage.list_round_placeholders at hpid
        exact (pySorted_perm _ _).mem_iff.mp hpid
      obtain ⟨p, hpfil, hpmid⟩ := List.mem_map.mp hpidX
      have hpmem : p ∈ db.matchRows := (List.mem_filter.mp hpfil).1
      have hpq : (Storage.inRound "swiss" (latest + 1) p && p.team_a == none &&
          p.team_b == none) = true := by
        simpa using (List.mem_filter.mp hpfil).2
      have hpm : p = m :=
        List.inj_on_of_nodup_map hnd hpmem hmem (by rw [hpmid, hmid2])
      rw [hpm] at hpq
      rcases Bool.and_eq_true _ _ |>.mp hpq with ⟨hq1, hqb⟩
      rcases Bool.and_eq_true _ _ |>.mp hq1 with ⟨_, hqa⟩
      exact ⟨by simpa using hqa, by simpa using hqb⟩
  · have hunch : (Main.do_swiss db).2 = db := by
      rcases do_swiss_filled_or_unchanged db with h | h
      · exact absurd h hfil
      · exact h
    refine ⟨?_, by rw [hunch], ?_, (do_de_stuck db).1⟩
    · rw [hunch]
      cases houtcome : (Main.do_swiss db).1 with
      | noFullRound => rfl
      | roundMissing n => rfl
      | noPlaceholders n => rfl
      | countMismatch a b => rfl
      | assignError => rfl
      | filled ws2 =>
        refine absurd ⟨ws2, (Main.do_swiss db).2, ?_⟩ hfil
        have hpair : Main.do_swiss db =
            ((Main.do_swiss db).1, (Main.do_swiss db).2) := rfl
        rw [hpair, houtcome]
    · intro i hi hne
      rw [hunch] at hne
      exact absurd rfl hne

/-- Witness for C8's theorem at a concrete input. -/
theorem C8_resolver_idempotent_witness :
    (emptyDB.matchRows.map (fun m => m.match_id)).Nodup ∧
    (swissWrites (Main.do_swiss (Main.do_swiss emptyDB).2).1 = [] ∧
     (Main.do_swiss emptyDB).2.matchRows.length = emptyDB.matchRows.length ∧
     (∀ i, i < emptyDB.matchRows.length →
       (Main.do_swiss emptyDB).2.matchRows.getD i dummyRow ≠
         emptyDB.matchRows.getD i dummyRow →
       (emptyDB.matchRows.getD i dummyRow).team_a = none ∧
       (emptyDB.matchRows.getD i dummyRow).team_b = none) ∧
     (Main.do_de emptyDB).2 = emptyDB) :=
  ⟨by decide, C8_resolver_idempotent emptyDB (by decide)⟩

/-- Reduce a remainder by an arbitrary modulus to truncated subtraction when
the dividend is below three times the modulus. -/
theorem mod3 (x m : Nat) (hm : 0 < m) (h : x < 3 * m) :
    x % m = if x < m then x else if x < 2 * m then x - m else x - 2 * m := by
  by_cases h1 : x < m
  · rw [if_pos h1, Nat.mod_eq_of_lt h1]
  · rw [if_neg h1]
    by_cases h2 : x < 2 * m
    · rw [if_pos h2, Nat.mod_eq_sub_mod (by omega), Nat.mod_eq_of_lt (by omega)]
    · rw [if_neg h2, Nat.mod_eq_sub_mod (by omega), Nat.mod_eq_sub_mod (by omega)]
      have h3 : x - m - m = x - 2 * m := by omega
      rw [h3, Nat.mod_eq_of_lt (by omega)]

/-- countP only depends on the predicate's values on the list. -/
theorem countP_congr_mem {α : Type} (l : List α) (p q : α → Bool)
    (h : ∀ a ∈ l, p a = q a) : l.countP p = l.countP q := by
  rw [List.countP_eq_length_filter, List.countP_eq_length_filter,
    List.filter_congr h]

/-- Counting a single value over an initial segment of the naturals. -/
theorem countP_range_unique (c : Nat) :
    ∀ t, (List.range t).countP (fun k => decide (k = c)) =
      if c < t then 1 else 0 := by
  intro t
  induction t with
  | zero => simp
  | succ t ih =>
    rw [List.range_succ, List.countP_append, ih]
    by_cases h : t = c
    · rw [List.countP_cons]
      simp [h]
    · rw [List.countP_cons]
      simp only [List.countP_nil, decide_eq_true_iff]
      rw [if_neg h]
      by_cases h2 : c < t
      · rw [if_pos h2, if_pos (by omega)]
      · rw [if_neg h2, if_neg (by omega)]

/-- Summing an indicator of a single value over an initial segment. -/
theorem sum_ite_range (c : Nat) :
    ∀ t, ((List.range t).map (fun k => if k = c then 1 else 0)).sum =
      if c < t then 1 else 0 := by
  intro t
  induction t with
  | zero => simp
  | succ t ih =>
    rw [List.range_succ, List.map_append, List.sum_append, ih]
    by_cases h : t = c
    · simp [h]
    · simp only [List.map_cons, List.map_nil, List.sum_cons, List.sum_nil]
      rw [if_neg h]
      by_cases h2 : c < t
      · rw [if_pos h2, if_pos (by omega)]
        omega
      · rw [if_neg h2, if_neg (by omega)]
        omega

/-- Boolean test for "this schedule pair is the unordered pair {x, y}". -/
def mp2 (x y : Option Nat) (p : Option Nat × Option Nat) : Bool :=
  (p.1 == x && p.2 == y) || (p.1 == y && p.2 == x)

/-- mp2 is symmetric in its two targets. -/
theorem mp2_comm (x y : Option Nat) : mp2 x y = mp2 y x := by
  funext p
  show (_ || _) = (_ || _)
  exact Bool.or_comm _ _

/-- One step of the circle method fixes the head and right-rotates the tail:
`[arr[0]] + [arr[-1]] + arr[1:-1]` is `p0` followed by the tail rotated left
by `length − 1`. -/
theorem rotateArr_eq (p0 : Option Nat) (q : List (Option Nat)) (hq : q ≠ []) :
    Main.rotateArr (p0 :: q) = p0 :: q.rotate (q.length - 1) := by
  have hsplit := List.dropLast_append_getLast hq
  have hlen : 0 < q.length := List.length_pos.mpr hq
  have hdl : q.dropLast.length = q.length - 1 := List.length_dropLast q
  unfold Main.rotateArr
  rw [← hsplit]
  have h1 : (p0 :: (q.dropLast ++ [q.getLast hq])).take 1 = [p0] := rfl
  have h2 : (p0 :: (q.dropLast ++ [q.getLast hq])).reverse.take 1 =
      [q.getLast hq] := by
    rw [List.reverse_cons, List.reverse_append]
    rfl
  have h3 : ((p0 :: (q.dropLast ++ [q.getLast hq])).drop 1).dropLast =
      q.dropLast := by
    rw [List.drop_one, List.tail_cons, List.dropLast_concat]
  rw [h1, h2, h3]
  have h4 : (q.dropLast ++ [q.getLast hq]).rotate
      ((q.dropLast ++ [q.getLast hq]).length - 1) =
      q.getLast hq :: q.dropLast := by
    rw [List.rotate_eq_drop_append_take (Nat.sub_le _ _)]
    rw [List.length_append, List.length_singleton, hdl]
    have h5 : q.length - 1 + 1 - 1 = q.dropLast.length := by omega
    rw [h5, List.drop_left, List.take_left]
    rfl
  rw [h4]
  rfl

/-- Iterating the rotation step rotates the tail cumulatively. -/
theorem rotateArr_iterate (p0 : Option Nat) (q : List (Option Nat))
    (hq : q ≠ []) :
    ∀ k, Main.rotateArr^[k] (p0 :: q) = p0 :: q.rotate (k * (q.length - 1)) := by
  intro k
  induction k with
  | zero => rw [Function.iterate_zero_apply, Nat.zero_mul, List.rotate_zero]
  | succ k ih =>
    rw [Function.iterate_succ_apply', ih]
    have hq2 : q.rotate (k * (q.length - 1)) ≠ [] := by
      intro hc
      apply hq
      have := List.length_rotate q (k * (q.length - 1))
      rw [hc] at this
      exact List.length_eq_zero.mp this.symm
    rw [rotateArr_eq p0 _ hq2, List.length_rotate, List.rotate_rotate]
    have h1 : k * (q.length - 1) + (q.length - 1) = (k + 1) * (q.length - 1) := by
      ring
    rw [h1]

/-- The schedule loop lists the rounds of the successive rotations. -/
theorem rrSched_eq_map (n : Nat) :
    ∀ (k : Nat) (arr : List (Option Nat)),
      Main.rrSched n k arr =
        (List.range k).map (fun j => Main.rrRound n (Main.rotateArr^[j] arr)) := by
  intro k
  induction k with
  | zero => intro arr; rfl
  | succ k ih =>
    intro arr
    show Main.rrRound n arr :: Main.rrSched n k (Main.rotateArr arr) = _
    rw [ih, List.range_succ_eq_map, List.map_cons, Function.iterate_zero_apply,
      List.map_map]
    have h1 : ((fun j => Main.rrRound n (Main.rotateArr^[j] arr)) ∘ Nat.succ) =
        (fun j => Main.rrRound n (Main.rotateArr^[j] (Main.rotateArr arr))) := by
      funext j
      show Main.rrRound n (Main.rotateArr^[j + 1] arr) = _
      rw [Function.iterate_succ_apply]
    rw [h1]

/-- Reading a rotated list through getD with in-range index. -/
theorem rotate_getD (q : List (Option Nat)) (s j : Nat) (hj : j < q.length) :
    (q.rotate s).getD j none = q.getD ((j + s) % q.length) none := by
  have hm : 0 < q.length := by omega
  have hj2 : j < (q.rotate s).length := by rw [List.length_rotate]; exact hj
  have hlt : (j + s) % q.length < q.length := Nat.mod_lt _ hm
  rw [List.getD_eq_getElem _ _ hj2, List.getD_eq_getElem _ _ hlt]
  exact List.getElem_rotate q s j hj2

/-- getD at in-range positions of a duplicate-free list is injective. -/
theorem getD_inj (q : List (Option Nat)) (hnd : q.Nodup) (A B : Nat)
    (hA : A < q.length) (hB : B < q.length) :
    (q.getD A none = q.getD B none) ↔ A = B := by
  rw [List.getD_eq_getElem _ _ hA, List.getD_eq_getElem _ _ hB]
  exact hnd.getElem_inj_iff

/-- getD at an in-range position is a member. -/
theorem getD_mem (q : List (Option Nat)) (A : Nat) (hA : A < q.length) :
    q.getD A none ∈ q := by
  rw [List.getD_eq_getElem _ _ hA]
  exact List.getElem_mem hA

/-- The second slot of the circle-method pair at position 0. -/
theorem arr_pair_zero (p0 : Option Nat) (q : List (Option Nat)) (s : Nat)
    (hs : s < q.length) :
    (p0 :: q.rotate s).getD (q.length + 1 - 1 - 0) none =
      q.getD ((q.length - 1 + s) % q.length) none := by
  have h1 : q.length + 1 - 1 - 0 = (q.length - 1) + 1 := by omega
  rw [h1, List.getD_cons_succ, rotate_getD q s (q.length - 1) (by omega)]

/-- The first slot of the circle-method pair at a positive position. -/
theorem arr_pair_succ_fst (p0 : Option Nat) (q : List (Option Nat)) (s j : Nat)
    (hj : j < q.length) :
    (p0 :: q.rotate s).getD (j + 1) none = q.getD ((j + s) % q.length) none := by
  rw [List.getD_cons_succ, rotate_getD q s j hj]

/-- The second slot of the circle-method pair at a positive position. -/
theorem arr_pair_succ_snd (p0 : Option Nat) (q : List (Option Nat)) (s j : Nat)
    (hj : j + 1 < (q.length + 1) / 2) :
    (p0 :: q.rotate s).getD (q.length + 1 - 1 - (j + 1)) none =
      q.getD ((q.length - j - 2 + s) % q.length) none := by
  have h1 : q.length + 1 - 1 - (j + 1) = (q.length - j - 2) + 1 := by omega
  rw [h1, List.getD_cons_succ, rotate_getD q s (q.length - j - 2) (by omega)]

/-- In one circle-method round, the fixed head `p0` meets the tail element
at index `j0` exactly when the rotation puts it in the last slot. -/
theorem round_count_left (p0 : Option Nat) (q : List (Option Nat))
    (hnd : (p0 :: q).Nodup) (j0 s : Nat)
    (hj0 : j0 < q.length) (hs : s < q.length) :
    (Main.rrRound (q.length + 1) (p0 :: q.rotate s)).countP
      (mp2 p0 (q.getD j0 none)) =
    if (q.length - 1 + s) % q.length = j0 then 1 else 0 := by
  have hm : 0 < q.length := by omega
  have hp0 : p0 ∉ q := (List.nodup_cons.mp hnd).1
  have hqnd : q.Nodup := (List.nodup_cons.mp hnd).2
  have hy : q.getD j0 none ∈ q := getD_mem q j0 hj0
  have hp0y : ¬ (p0 = q.getD j0 none) := fun h => hp0 (h ▸ hy)
  unfold Main.rrRound
  rw [List.countP_map]
  by_cases hcond : (q.length - 1 + s) % q.length = j0
  · rw [if_pos hcond]
    have hpt : ∀ i ∈ List.range ((q.length + 1) / 2),
        (mp2 p0 (q.getD j0 none) ∘ fun i =>
          ((p0 :: q.rotate s).getD i none,
           (p0 :: q.rotate s).getD (q.length + 1 - 1 - i) none)) i =
        (fun k => decide (k = 0)) i := by
      intro i hi
      rw [List.mem_range] at hi
      cases i with
      | zero =>
        show mp2 p0 (q.getD j0 none)
          ((p0 :: q.rotate s).getD 0 none,
           (p0 :: q.rotate s).getD (q.length + 1 - 1 - 0) none) = _
        rw [List.getD_cons_zero, arr_pair_zero p0 q s hs, hcond]
        simp [mp2]
      | succ j =>
        show mp2 p0 (q.getD j0 none)
          ((p0 :: q.rotate s).getD (j + 1) none,
           (p0 :: q.rotate s).getD (q.length + 1 - 1 - (j + 1)) none) = _
        have hj : j < q.length := by omega
        rw [arr_pair_succ_fst p0 q s j hj, arr_pair_succ_snd p0 q s j hi]
        have hA : q.getD ((j + s) % q.length) none ∈ q :=
          getD_mem _ _ (Nat.mod_lt _ hm)
        have hB : q.getD ((q.length - j - 2 + s) % q.length) none ∈ q :=
          getD_mem _ _ (Nat.mod_lt _ hm)
        have h1 : ¬ (q.getD ((j + s) % q.length) none = p0) :=
          fun h => hp0 (h ▸ hA)
        have h2 : ¬ (q.getD ((q.length - j - 2 + s) % q.length) none = p0) :=
          fun h => hp0 (h ▸ hB)
        simp [mp2, h1, h2, -List.getD_eq_getElem?_getD]
    rw [countP_congr_mem _ _ _ hpt, countP_range_unique]
    rw [if_pos (by omega)]
  · rw [if_neg hcond]
    have hpt : ∀ i ∈ List.range ((q.length + 1) / 2),
        (mp2 p0 (q.getD j0 none) ∘ fun i =>
          ((p0 :: q.rotate s).getD i none,
           (p0 :: q.rotate s).getD (q.length + 1 - 1 - i) none)) i =
        (fun _ => false) i := by
      intro i hi
      rw [List.mem_range] at hi
      cases i with
      | zero =>
        show mp2 p0 (q.getD j0 none)
          ((p0 :: q.rotate s).getD 0 none,
           (p0 :: q.rotate s).getD (q.length + 1 - 1 - 0) none) = _
        rw [List.getD_cons_zero, arr_pair_zero p0 q s hs]
        have hz : ¬ (q.getD ((q.length - 1 + s) % q.length) none =
            q.getD j0 none) := fun h =>
          hcond ((getD_inj q hqnd _ j0 (Nat.mod_lt _ hm) hj0).mp h)
        simp [mp2, hz, hp0y, -List.getD_eq_getElem?_getD]
      | succ j =>
        show mp2 p0 (q.getD j0 none)
          ((p0 :: q.rotate s).getD (j + 1) none,
           (p0 :: q.rotate s).getD (q.length + 1 - 1 - (j + 1)) none) = _
        have hj : j < q.length := by omega
        rw [arr_pair_succ_fst p0 q s j hj, arr_pair_succ_snd p0 q s j hi]
        have hA : q.getD ((j + s) % q.length) none ∈ q :=
          getD_mem _ _ (Nat.mod_lt _ hm)
        have hB : q.getD ((q.length - j - 2 + s) % q.length) none ∈ q :=
          getD_mem _ _ (Nat.mod_lt _ hm)
        have h1 : ¬ (q.getD ((j + s) % q.length) none = p0) :=
          fun h => hp0 (h ▸ hA)
        have h2 : ¬ (q.getD ((q.length - j - 2 + s) % q.length) none = p0) :=
          fun h => hp0 (h ▸ hB)
        simp [mp2, h1, h2, -List.getD_eq_getElem?_getD]
    rw [countP_congr_mem _ _ _ hpt, List.countP_eq_length_filter]
    simp

/-- Linear characterization of a remainder with dividend below twice the
modulus. -/
theorem mod2_char (x m : Nat) (hm : 0 < m) (h : x < 2 * m) :
    (x % m = x ∧ x < m) ∨ (x % m = x - m ∧ m ≤ x) := by
  rcases Nat.lt_or_ge x m with h1 | h1
  · exact Or.inl ⟨Nat.mod_eq_of_lt h1, h1⟩
  · refine Or.inr ⟨?_, h1⟩
    rw [Nat.mod_eq_sub_mod h1, Nat.mod_eq_of_lt (by omega)]

/-- Linear characterization of a remainder with dividend below three times
the modulus. -/
theorem mod3_char (x m : Nat) (hm : 0 < m) (h : x < 3 * m) :
    (x % m = x ∧ x < m) ∨ (x % m = x - m ∧ m ≤ x ∧ x < 2 * m) ∨
    (x % m = x - 2 * m ∧ 2 * m ≤ x) := by
  rcases Nat.lt_or_ge x m with h1 | h1
  · exact Or.inl ⟨Nat.mod_eq_of_lt h1, h1⟩
  rcases Nat.lt_or_ge x (2 * m) with h2 | h2
  · refine Or.inr (Or.inl ⟨?_, h1, h2⟩)
    rw [Nat.mod_eq_sub_mod h1, Nat.mod_eq_of_lt (by omega)]
  · refine Or.inr (Or.inr ⟨?_, h2⟩)
    rw [Nat.mod_eq_sub_mod (by omega), Nat.mod_eq_sub_mod (by omega)]
    have h3 : x - m - m = x - 2 * m := by omega
    rw [h3, Nat.mod_eq_of_lt (by omega)]



/-- Additive two-case characterization of a remainder. -/
theorem mod2_add (x m : Nat) (h : x < 2 * m) :
    x % m = x ∨ x % m + m = x := by
  rcases Nat.lt_or_ge x m with h1 | h1
  · exact Or.inl (Nat.mod_eq_of_lt h1)
  · right
    rw [Nat.mod_eq_sub_mod h1, Nat.mod_eq_of_lt (by omega)]
    omega

/-- Additive three-case characterization of a remainder. -/
theorem mod3_add (x m : Nat) (hm : 0 < m) (h : x < 3 * m) :
    x % m = x ∨ x % m + m = x ∨ x % m + 2 * m = x := by
  rcases Nat.lt_or_ge x m with h1 | h1
  · exact Or.inl (Nat.mod_eq_of_lt h1)
  rcases Nat.lt_or_ge x (2 * m) with h2 | h2
  · right; left
    rw [Nat.mod_eq_sub_mod h1, Nat.mod_eq_of_lt (by omega)]
    omega
  · right; right
    rw [Nat.mod_eq_sub_mod (by omega), Nat.mod_eq_sub_mod (by omega)]
    have h3 : x - m - m = x - 2 * m := by omega
    rw [h3, Nat.mod_eq_of_lt (by omega)]
    omega

/-- A positive circle-method slot pairs tail indices `u0` and `v0` exactly
when the rotation satisfies the sum congruence and the slot hits one of the
two indices. -/
theorem circle_match_iff (m u0 v0 s j : Nat) (hm3 : 3 ≤ m)
    (hu : u0 < m) (hv : v0 < m) (hs : s < m) (hj : 2 * j + 3 ≤ m) :
    (((j + s) % m = u0 ∧ (m - j - 2 + s) % m = v0) ∨
     ((j + s) % m = v0 ∧ (m - j - 2 + s) % m = u0)) ↔
    ((u0 + v0 + 2) % m = (2 * s) % m ∧
     (j + s = u0 ∨ j + s = u0 + m ∨ j + s = v0 ∨ j + s = v0 + m)) := by
  have hm : 0 < m := by omega
  obtain ⟨A, hAeq, hA, hAlt⟩ : ∃ A, (j + s) % m = A ∧
      (A = j + s ∨ A + m = j + s) ∧ A < m :=
    ⟨_, rfl, mod2_add (j + s) m (by omega), Nat.mod_lt _ hm⟩
  obtain ⟨B, hBeq, hB, hBlt⟩ : ∃ B, (m - j - 2 + s) % m = B ∧
      (B + j + 2 = m + s ∨ B + m + j + 2 = m + s) ∧ B < m := by
    refine ⟨_, rfl, ?_, Nat.mod_lt _ hm⟩
    rcases mod2_add (m - j - 2 + s) m (by omega) with h | h
    · left; omega
    · right; omega
  obtain ⟨c1, hc1eq, hc1, hc1lt⟩ : ∃ c1, (u0 + v0 + 2) % m = c1 ∧
      (c1 = u0 + v0 + 2 ∨ c1 + m = u0 + v0 + 2 ∨ c1 + 2 * m = u0 + v0 + 2) ∧
      c1 < m :=
    ⟨_, rfl, mod3_add (u0 + v0 + 2) m hm (by omega), Nat.mod_lt _ hm⟩
  obtain ⟨c2, hc2eq, hc2, hc2lt⟩ : ∃ c2, (2 * s) % m = c2 ∧
      (c2 = 2 * s ∨ c2 + m = 2 * s) ∧ c2 < m :=
    ⟨_, rfl, mod2_add (2 * s) m (by omega), Nat.mod_lt _ hm⟩
  rw [hAeq, hBeq, hc1eq, hc2eq]
  clear hAeq hBeq hc1eq hc2eq
  omega

/-- With distinct tail indices the sum congruence has three linear forms. -/
theorem circle_sum_char (m u0 v0 s : Nat) (hm3 : 3 ≤ m)
    (hu : u0 < m) (hv : v0 < m) (huv : u0 ≠ v0) (hs : s < m)
    (hC : (u0 + v0 + 2) % m = (2 * s) % m) :
    u0 + v0 + 2 = 2 * s ∨ u0 + v0 + 2 = 2 * s + m ∨ u0 + v0 + 2 + m = 2 * s := by
  have hm : 0 < m := by omega
  obtain ⟨c1, hc1eq, hc1, hc1lt⟩ : ∃ c1, (u0 + v0 + 2) % m = c1 ∧
      (c1 = u0 + v0 + 2 ∨ c1 + m = u0 + v0 + 2 ∨ c1 + 2 * m = u0 + v0 + 2) ∧
      c1 < m :=
    ⟨_, rfl, mod3_add (u0 + v0 + 2) m hm (by omega), Nat.mod_lt _ hm⟩
  obtain ⟨c2, hc2eq, hc2, hc2lt⟩ : ∃ c2, (2 * s) % m = c2 ∧
      (c2 = 2 * s ∨ c2 + m = 2 * s) ∧ c2 < m :=
    ⟨_, rfl, mod2_add (2 * s) m (by omega), Nat.mod_lt _ hm⟩
  rw [hc1eq, hc2eq] at hC
  omega

/-- Some in-range positive slot hits one of two distinct tail indices whose
sum congruence holds. -/
theorem circle_exists (m u0 v0 s : Nat) (hm3 : 3 ≤ m) (hodd : m % 2 = 1)
    (hu : u0 < m) (hv : v0 < m) (huv : u0 ≠ v0) (hs : s < m)
    (hCl : u0 + v0 + 2 = 2 * s ∨ u0 + v0 + 2 = 2 * s + m ∨
      u0 + v0 + 2 + m = 2 * s) :
    ∃ j, 2 * j + 3 ≤ m ∧
      (j + s = u0 ∨ j + s = u0 + m ∨ j + s = v0 ∨ j + s = v0 + m) := by
  by_cases h1 : s ≤ u0
  · by_cases hr : 2 * (u0 - s) + 3 ≤ m
    · exact ⟨u0 - s, hr, by omega⟩
    · by_cases h2 : s ≤ v0
      · exact ⟨v0 - s, by omega, by omega⟩
      · exact ⟨v0 + m - s, by omega, by omega⟩
  · by_cases hr : 2 * (u0 + m - s) + 3 ≤ m
    · exact ⟨u0 + m - s, hr, by omega⟩
    · by_cases h2 : s ≤ v0
      · exact ⟨v0 - s, by omega, by omega⟩
      · exact ⟨v0 + m - s, by omega, by omega⟩

/-- At most one in-range positive slot hits one of two distinct tail indices
whose sum congruence holds. -/
theorem circle_unique (m u0 v0 s j1 j2 : Nat) (hm3 : 3 ≤ m)
    (hodd : m % 2 = 1) (hu : u0 < m) (hv : v0 < m) (huv : u0 ≠ v0)
    (hs : s < m)
    (hCl : u0 + v0 + 2 = 2 * s ∨ u0 + v0 + 2 = 2 * s + m ∨
      u0 + v0 + 2 + m = 2 * s)
    (hb1 : 2 * j1 + 3 ≤ m) (hb2 : 2 * j2 + 3 ≤ m)
    (hj1 : j1 + s = u0 ∨ j1 + s = u0 + m ∨ j1 + s = v0 ∨ j1 + s = v0 + m)
    (hj2 : j2 + s = u0 ∨ j2 + s = u0 + m ∨ j2 + s = v0 ∨ j2 + s = v0 + m) :
    j1 = j2 := by
  omega

/-- In one circle-method round, two tail elements meet exactly when the
rotation offset solves the sum congruence of their indices. -/
theorem round_count_mid (p0 : Option Nat) (q : List (Option Nat))
    (hnd : (p0 :: q).Nodup) (hodd : q.length % 2 = 1) (u0 v0 s : Nat)
    (hu : u0 < q.length) (hv : v0 < q.length) (huv : u0 ≠ v0)
    (hs : s < q.length) :
    (Main.rrRound (q.length + 1) (p0 :: q.rotate s)).countP
      (mp2 (q.getD u0 none) (q.getD v0 none)) =
    if (u0 + v0 + 2) % q.length = (2 * s) % q.length then 1 else 0 := by
  have hm : 0 < q.length := by omega
  have hm3 : 3 ≤ q.length := by omega
  have hp0 : p0 ∉ q := (List.nodup_cons.mp hnd).1
  have hqnd : q.Nodup := (List.nodup_cons.mp hnd).2
  have hx : q.getD u0 none ∈ q := getD_mem q u0 hu
  have hy : q.getD v0 none ∈ q := getD_mem q v0 hv
  have hxp0 : ¬ (p0 = q.getD u0 none) := fun h => hp0 (h ▸ hx)
  have hyp0 : ¬ (p0 = q.getD v0 none) := fun h => hp0 (h ▸ hy)
  unfold Main.rrRound
  rw [List.countP_map]
  by_cases hC : (u0 + v0 + 2) % q.length = (2 * s) % q.length
  · rw [if_pos hC]
    have hCl := circle_sum_char q.length u0 v0 s hm3 hu hv huv hs hC
    obtain ⟨jstar, hjsb, hjsc⟩ :=
      circle_exists q.length u0 v0 s hm3 hodd hu hv huv hs hCl
    have hpt : ∀ i ∈ List.range ((q.length + 1) / 2),
        (mp2 (q.getD u0 none) (q.getD v0 none) ∘ fun i =>
          ((p0 :: q.rotate s).getD i none,
           (p0 :: q.rotate s).getD (q.length + 1 - 1 - i) none)) i =
        (fun k => decide (k = jstar + 1)) i := by
      intro i hi
      rw [List.mem_range] at hi
      cases i with
      | zero =>
        show mp2 (q.getD u0 none) (q.getD v0 none)
          ((p0 :: q.rotate s).getD 0 none,
           (p0 :: q.rotate s).getD (q.length + 1 - 1 - 0) none) =
          decide (0 = jstar + 1)
        rw [List.getD_cons_zero, arr_pair_zero p0 q s hs]
        simp [mp2, hxp0, hyp0, -List.getD_eq_getElem?_getD]
      | succ j =>
        show mp2 (q.getD u0 none) (q.getD v0 none)
          ((p0 :: q.rotate s).getD (j + 1) none,
           (p0 :: q.rotate s).getD (q.length + 1 - 1 - (j + 1)) none) =
          decide (j + 1 = jstar + 1)
        have hj : j < q.length := by omega
        rw [arr_pair_succ_fst p0 q s j hj, arr_pair_succ_snd p0 q s j hi]
        have hAlt : (j + s) % q.length < q.length := Nat.mod_lt _ hm
        have hBlt : (q.length - j - 2 + s) % q.length < q.length :=
          Nat.mod_lt _ hm
        have hbool : mp2 (q.getD u0 none) (q.getD v0 none)
            (q.getD ((j + s) % q.length) none,
             q.getD ((q.length - j - 2 + s) % q.length) none) =
            decide (((j + s) % q.length = u0 ∧
                (q.length - j - 2 + s) % q.length = v0) ∨
              ((j + s) % q.length = v0 ∧
                (q.length - j - 2 + s) % q.length = u0)) := by
          rw [Bool.eq_iff_iff, decide_eq_true_iff]
          simp only [mp2, Bool.or_eq_true, Bool.and_eq_true, beq_iff_eq]
          rw [getD_inj q hqnd _ u0 hAlt hu, getD_inj q hqnd _ v0 hBlt hv,
            getD_inj q hqnd _ v0 hAlt hv, getD_inj q hqnd _ u0 hBlt hu]
        rw [hbool, decide_eq_decide]
        rw [circle_match_iff q.length u0 v0 s j hm3 hu hv hs (by omega)]
        constructor
        · rintro ⟨-, hcond⟩
          have := circle_unique q.length u0 v0 s j jstar hm3 hodd hu hv huv
            hs hCl (by omega) hjsb hcond hjsc
          omega
        · intro h
          have hj2 : j = jstar := by omega
          subst hj2
          exact ⟨hC, hjsc⟩
    rw [countP_congr_mem _ _ _ hpt, countP_range_unique]
    rw [if_pos (by omega)]
  · rw [if_neg hC]
    have hpt : ∀ i ∈ List.range ((q.length + 1) / 2),
        (mp2 (q.getD u0 none) (q.getD v0 none) ∘ fun i =>
          ((p0 :: q.rotate s).getD i none,
           (p0 :: q.rotate s).getD (q.length + 1 - 1 - i) none)) i =
        (fun _ => false) i := by
      intro i hi
      rw [List.mem_range] at hi
      cases i with
      | zero =>
        show mp2 (q.getD u0 none) (q.getD v0 none)
          ((p0 :: q.rotate s).getD 0 none,
           (p0 :: q.rotate s).getD (q.length + 1 - 1 - 0) none) = false
        rw [List.getD_cons_zero, arr_pair_zero p0 q s hs]
        simp [mp2, hxp0, hyp0, -List.getD_eq_getElem?_getD]
      | succ j =>
        show mp2 (q.getD u0 none) (q.getD v0 none)
          ((p0 :: q.rotate s).getD (j + 1) none,
           (p0 :: q.rotate s).getD (q.length + 1 - 1 - (j + 1)) none) = false
        have hj : j < q.length := by omega
        rw [arr_pair_succ_fst p0 q s j hj, arr_pair_succ_snd p0 q s j hi]
        have hAlt : (j + s) % q.length < q.length := Nat.mod_lt _ hm
        have hBlt : (q.length - j - 2 + s) % q.length < q.length :=
          Nat.mod_lt _ hm
        have hbool : mp2 (q.getD u0 none) (q.getD v0 none)
            (q.getD ((j + s) % q.length) none,
             q.getD ((q.length - j - 2 + s) % q.length) none) =
            decide (((j + s) % q.length = u0 ∧
                (q.length - j - 2 + s) % q.length = v0) ∨
              ((j + s) % q.length = v0 ∧
                (q.length - j - 2 + s) % q.length = u0)) := by
          rw [Bool.eq_iff_iff, decide_eq_true_iff]
          simp only [mp2, Bool.or_eq_true, Bool.and_eq_true, beq_iff_eq]
          rw [getD_inj q hqnd _ u0 hAlt hu, getD_inj q hqnd _ v0 hBlt hv,
            getD_inj q hqnd _ v0 hAlt hv, getD_inj q hqnd _ u0 hBlt hu]
        rw [hbool, decide_eq_false_iff_not]
        rw [circle_match_iff q.length u0 v0 s j hm3 hu hv hs (by omega)]
        rintro ⟨hCx, -⟩
        exact hC hCx
    rw [countP_congr_mem _ _ _ hpt, List.countP_eq_length_filter]
    simp

/-- Additive form of "a positive slot holds the tail index z". -/
theorem bye_succ_iff (m z s j : Nat) (hm : 0 < m) (hz : z < m) (hs : s < m)
    (hj : 2 * j + 3 ≤ m) :
    ((j + s) % m = z ∨ (m - j - 2 + s) % m = z) ↔
    (j + s = z ∨ j + s = z + m ∨ m + s = z + j + 2 ∨ s = z + j + 2) := by
  obtain ⟨A, hAeq, hA, hAlt⟩ : ∃ A, (j + s) % m = A ∧
      (A = j + s ∨ A + m = j + s) ∧ A < m :=
    ⟨_, rfl, mod2_add (j + s) m (by omega), Nat.mod_lt _ hm⟩
  obtain ⟨B, hBeq, hB, hBlt⟩ : ∃ B, (m - j - 2 + s) % m = B ∧
      (B + j + 2 = m + s ∨ B + m + j + 2 = m + s) ∧ B < m := by
    refine ⟨_, rfl, ?_, Nat.mod_lt _ hm⟩
    rcases mod2_add (m - j - 2 + s) m (by omega) with h | h
    · left; omega
    · right; omega
  rw [hAeq, hBeq]
  clear hAeq hBeq
  omega

/-- Additive form of "slot 0's partner holds the tail index z". -/
theorem bye_zero_iff (m z s : Nat) (hm : 0 < m) (hz : z < m) (hs : s < m) :
    ((m - 1 + s) % m = z) ↔ (m - 1 + s = z ∨ s = z + 1) := by
  obtain ⟨A, hAeq, hA, hAlt⟩ : ∃ A, (m - 1 + s) % m = A ∧
      (A = m - 1 + s ∨ A + m = m - 1 + s) ∧ A < m :=
    ⟨_, rfl, mod2_add (m - 1 + s) m (by omega), Nat.mod_lt _ hm⟩
  rw [hAeq]
  clear hAeq
  omega

/-- When slot 0 misses the tail index z, some in-range positive slot holds
it. -/
theorem bye_succ_exists (m z s : Nat) (hm3 : 3 ≤ m) (hodd : m % 2 = 1)
    (hz : z < m) (hs : s < m)
    (h0 : ¬ (m - 1 + s = z ∨ s = z + 1)) :
    ∃ j, 2 * j + 3 ≤ m ∧
      (j + s = z ∨ j + s = z + m ∨ m + s = z + j + 2 ∨ s = z + j + 2) := by
  by_cases h1 : s ≤ z
  · by_cases hr : 2 * (z - s) + 3 ≤ m
    · exact ⟨z - s, hr, by omega⟩
    · by_cases h2 : z + 2 ≤ s
      · exact ⟨s - z - 2, by omega, by omega⟩
      · exact ⟨m + s - z - 2, by omega, by omega⟩
  · by_cases hr : 2 * (z + m - s) + 3 ≤ m
    · exact ⟨z + m - s, hr, by omega⟩
    · by_cases h2 : z + 2 ≤ s
      · exact ⟨s - z - 2, by omega, by omega⟩
      · exact ⟨m + s - z - 2, by omega, by omega⟩

/-- At most one in-range positive slot holds the tail index z. -/
theorem bye_succ_unique (m z s j1 j2 : Nat) (hm3 : 3 ≤ m)
    (hodd : m % 2 = 1) (hz : z < m) (hs : s < m)
    (hb1 : 2 * j1 + 3 ≤ m) (hb2 : 2 * j2 + 3 ≤ m)
    (hj1 : j1 + s = z ∨ j1 + s = z + m ∨ m + s = z + j1 + 2 ∨ s = z + j1 + 2)
    (hj2 : j2 + s = z ∨ j2 + s = z + m ∨ m + s = z + j2 + 2 ∨ s = z + j2 + 2) :
    j1 = j2 := by
  omega

/-- When slot 0 holds the tail index z, no in-range positive slot does. -/
theorem bye_succ_none (m z s j : Nat) (hm3 : 3 ≤ m) (hodd : m % 2 = 1)
    (hz : z < m) (hs : s < m) (hb : 2 * j + 3 ≤ m)
    (h0 : m - 1 + s = z ∨ s = z + 1) :
    ¬ (j + s = z ∨ j + s = z + m ∨ m + s = z + j + 2 ∨ s = z + j + 2) := by
  omega

/-- Every circle-method round over an odd real pool (tail containing the
BYE marker) has exactly one pair with an empty side. -/
theorem round_count_bye (p0 : Option Nat) (q : List (Option Nat))
    (hnd : (p0 :: q).Nodup) (hodd : q.length % 2 = 1) (hm3 : 3 ≤ q.length)
    (hp0n : p0 ≠ none) (hnq : none ∈ q) (s : Nat) (hs : s < q.length) :
    (Main.rrRound (q.length + 1) (p0 :: q.rotate s)).countP
      (fun p => p.1 == none || p.2 == none) = 1 := by
  have hm : 0 < q.length := by omega
  have hqnd : q.Nodup := (List.nodup_cons.mp hnd).2
  obtain ⟨z, hzlt, hzval⟩ := List.mem_iff_getElem.mp hnq
  have hzd : q.getD z none = none := by
    rw [List.getD_eq_getElem _ _ hzlt]
    exact hzval
  have hiff : ∀ A, A < q.length → ((q.getD A none = none) ↔ A = z) :=
    fun A hA =>
      ⟨fun h => (getD_inj q hqnd A z hA hzlt).mp (h.trans hzd.symm),
       fun h => h ▸ hzd⟩
  unfold Main.rrRound
  rw [List.countP_map]
  by_cases h0 : (q.length - 1 + s) % q.length = z
  · have hpt : ∀ i ∈ List.range ((q.length + 1) / 2),
        ((fun p => p.1 == (none : Option Nat) || p.2 == none) ∘ fun i =>
          ((p0 :: q.rotate s).getD i none,
           (p0 :: q.rotate s).getD (q.length + 1 - 1 - i) none)) i =
        (fun k => decide (k = 0)) i := by
      intro i hi
      rw [List.mem_range] at hi
      cases i with
      | zero =>
        show ((p0 :: q.rotate s).getD 0 none == none ||
          (p0 :: q.rotate s).getD (q.length + 1 - 1 - 0) none == none) =
          decide (0 = 0)
        rw [List.getD_cons_zero, arr_pair_zero p0 q s hs, h0, hzd]
        simp
      | succ j =>
        show ((p0 :: q.rotate s).getD (j + 1) none == none ||
          (p0 :: q.rotate s).getD (q.length + 1 - 1 - (j + 1)) none == none) =
          decide (j + 1 = 0)
        have hj : j < q.length := by omega
        rw [arr_pair_succ_fst p0 q s j hj, arr_pair_succ_snd p0 q s j hi]
        have hAlt : (j + s) % q.length < q.length := Nat.mod_lt _ hm
        have hBlt : (q.length - j - 2 + s) % q.length < q.length :=
          Nat.mod_lt _ hm
        have hbool : (q.getD ((j + s) % q.length) none == (none : Option Nat) ||
            q.getD ((q.length - j - 2 + s) % q.length) none == none) =
            decide ((j + s) % q.length = z ∨
              (q.length - j - 2 + s) % q.length = z) := by
          rw [Bool.eq_iff_iff, decide_eq_true_iff]
          simp only [Bool.or_eq_true, beq_iff_eq]
          rw [hiff _ hAlt, hiff _ hBlt]
        rw [hbool, decide_eq_decide]
        rw [bye_zero_iff q.length z s hm hzlt hs] at h0
        have hnone := bye_succ_none q.length z s j hm3 hodd hzlt hs
          (by omega) h0
        rw [bye_succ_iff q.length z s j hm hzlt hs (by omega)]
        constructor
        · intro h
          exact absurd h hnone
        · intro h
          omega
    rw [countP_congr_mem _ _ _ hpt, countP_range_unique]
    rw [if_pos (by omega)]
  · rw [bye_zero_iff q.length z s hm hzlt hs] at h0
    obtain ⟨jb, hjbb, hjbc⟩ :=
      bye_succ_exists q.length z s hm3 hodd hzlt hs h0
    have hpt : ∀ i ∈ List.range ((q.length + 1) / 2),
        ((fun p => p.1 == (none : Option Nat) || p.2 == none) ∘ fun i =>
          ((p0 :: q.rotate s).getD i none,
           (p0 :: q.rotate s).getD (q.length + 1 - 1 - i) none)) i =
        (fun k => decide (k = jb + 1)) i := by
      intro i hi
      rw [List.mem_range] at hi
      cases i with
      | zero =>
        show ((p0 :: q.rotate s).getD 0 none == none ||
          (p0 :: q.rotate s).getD (q.length + 1 - 1 - 0) none == none) =
          decide (0 = jb + 1)
        rw [List.getD_cons_zero, arr_pair_zero p0 q s hs]
        have hW : (q.length - 1 + s) % q.length < q.length := Nat.mod_lt _ hm
        have hz2 : ¬ (q.getD ((q.length - 1 + s) % q.length) none = none) := by
          rw [hiff _ hW, bye_zero_iff q.length z s hm hzlt hs]
          exact h0
        have hp0n2 : ¬ (p0 = none) := hp0n
        simp [hp0n2, hz2, -List.getD_eq_getElem?_getD]
      | succ j =>
        show ((p0 :: q.rotate s).getD (j + 1) none == none ||
          (p0 :: q.rotate s).getD (q.length + 1 - 1 - (j + 1)) none == none) =
          decide (j + 1 = jb + 1)
        have hj : j < q.length := by omega
        rw [arr_pair_succ_fst p0 q s j hj, arr_pair_succ_snd p0 q s j hi]
        have hAlt : (j + s) % q.length < q.length := Nat.mod_lt _ hm
        have hBlt : (q.length - j - 2 + s) % q.length < q.length :=
          Nat.mod_lt _ hm
        have hbool : (q.getD ((j + s) % q.length) none == (none : Option Nat) ||
            q.getD ((q.length - j - 2 + s) % q.length) none == none) =
            decide ((j + s) % q.length = z ∨
              (q.length - j - 2 + s) % q.length = z) := by
          rw [Bool.eq_iff_iff, decide_eq_true_iff]
          simp only [Bool.or_eq_true, beq_iff_eq]
          rw [hiff _ hAlt, hiff _ hBlt]
        rw [hbool, decide_eq_decide]
        rw [bye_succ_iff q.length z s j hm hzlt hs (by omega)]
        constructor
        · intro h
          have := bye_succ_unique q.length z s j jb hm3 hodd hzlt hs
            (by omega) hjbb h hjbc
          omega
        · intro h
          have hj2 : j = jb := by omega
          subst hj2
          exact hjbc
    rw [countP_congr_mem _ _ _ hpt, countP_range_unique]
    rw [if_pos (by omega)]

/-- Closed form of the cumulative rotation offset of round k. -/
theorem s_formula (m k : Nat) (hm : 0 < m) (hk : k < m) :
    (k * (m - 1)) % m = if k = 0 then 0 else m - k := by
  by_cases hk0 : k = 0
  · rw [if_pos hk0, hk0, Nat.zero_mul, Nat.zero_mod]
  · rw [if_neg hk0]
    obtain ⟨m2, rfl⟩ : ∃ m2, m = m2 + 1 := ⟨m - 1, by omega⟩
    obtain ⟨k2, rfl⟩ : ∃ k2, k = k2 + 1 := ⟨k - 1, by omega⟩
    have e1 : (k2 + 1) * (m2 + 1 - 1) = (m2 + 1) * k2 + (m2 + 1 - (k2 + 1)) := by
      have h2 : m2 + 1 - 1 = m2 := rfl
      rw [h2]
      have h4 : (k2 + 1) * m2 = k2 * m2 + m2 := by ring
      have h5 : (m2 + 1) * k2 = k2 * m2 + k2 := by ring
      omega
    rw [e1, Nat.mul_add_mod, Nat.mod_eq_of_lt (by omega)]

/-- The whole schedule, written with explicit reduced rotation offsets. -/
theorem rrSched_closed (p0 : Option Nat) (q : List (Option Nat)) (hq : q ≠ []) :
    Main.rrSched (q.length + 1) q.length (p0 :: q) =
      (List.range q.length).map (fun k =>
        Main.rrRound (q.length + 1)
          (p0 :: q.rotate ((k * (q.length - 1)) % q.length))) := by
  rw [rrSched_eq_map]
  apply List.map_congr_left
  intro k _
  rw [rotateArr_iterate p0 q hq k, List.rotate_mod]

/-- The head's opponent condition picks out exactly one round. -/
theorem left_cond_iff (m j0 k : Nat) (hm : 0 < m) (hj0 : j0 < m)
    (hk : k < m) :
    ((m - 1 + (k * (m - 1)) % m) % m = j0) ↔ k = m - 1 - j0 := by
  have hsf := s_formula m k hm hk
  have hsk : ((k * (m - 1)) % m = 0 ∧ k = 0) ∨
      ((k * (m - 1)) % m + k = m ∧ 1 ≤ k) := by
    by_cases hk0 : k = 0
    · left
      rw [hsf, if_pos hk0, hk0]
      exact ⟨rfl, rfl⟩
    · right
      rw [hsf, if_neg hk0]
      omega
  have hsklt : (k * (m - 1)) % m < m := Nat.mod_lt _ hm
  obtain ⟨W, hWeq, hW, hWlt⟩ : ∃ W, (m - 1 + (k * (m - 1)) % m) % m = W ∧
      (W = m - 1 + (k * (m - 1)) % m ∨
        W + m = m - 1 + (k * (m - 1)) % m) ∧ W < m :=
    ⟨_, rfl, mod2_add _ m (by omega), Nat.mod_lt _ hm⟩
  rw [hWeq]
  clear hWeq hsf
  omega

/-- Across the whole schedule, the fixed head meets each tail element
exactly once. -/
theorem rr_total_left (p0 : Option Nat) (q : List (Option Nat))
    (hnd : (p0 :: q).Nodup) (j0 : Nat) (hj0 : j0 < q.length) :
    ((Main.rrSched (q.length + 1) q.length (p0 :: q)).map
      (List.countP (mp2 p0 (q.getD j0 none)))).sum = 1 := by
  have hm : 0 < q.length := by omega
  have hq : q ≠ [] := by
    intro h
    rw [h] at hm
    simp at hm
  rw [rrSched_closed p0 q hq, List.map_map]
  have hpt : ∀ k ∈ List.range q.length,
      (List.countP (mp2 p0 (q.getD j0 none)) ∘ fun k =>
        Main.rrRound (q.length + 1)
          (p0 :: q.rotate ((k * (q.length - 1)) % q.length))) k =
      (fun k => if k = q.length - 1 - j0 then 1 else 0) k := by
    intro k hk
    rw [List.mem_range] at hk
    show (Main.rrRound (q.length + 1)
        (p0 :: q.rotate ((k * (q.length - 1)) % q.length))).countP
        (mp2 p0 (q.getD j0 none)) = _
    rw [round_count_left p0 q hnd j0 ((k * (q.length - 1)) % q.length) hj0
      (Nat.mod_lt _ hm)]
    exact if_congr (left_cond_iff q.length j0 k hm hj0 hk) rfl rfl
  rw [List.map_congr_left hpt, sum_ite_range]
  rw [if_pos (by omega)]

/-- Some round's rotation offset solves the sum congruence of two tail
indices. -/
theorem mid_k_exists (m u0 v0 : Nat) (hm3 : 3 ≤ m) (hodd : m % 2 = 1)
    (hu : u0 < m) (hv : v0 < m) :
    ∃ k0, k0 < m ∧
      (u0 + v0 + 2) % m = (2 * ((k0 * (m - 1)) % m)) % m := by
  have hm : 0 < m := by omega
  have hclt : (u0 + v0 + 2) % m < m := Nat.mod_lt _ hm
  by_cases hpar : (u0 + v0 + 2) % m % 2 = 0
  · by_cases hz : (u0 + v0 + 2) % m / 2 = 0
    · refine ⟨0, hm, ?_⟩
      rw [Nat.zero_mul, Nat.zero_mod, Nat.mul_zero, Nat.zero_mod]
      omega
    · refine ⟨m - (u0 + v0 + 2) % m / 2, by omega, ?_⟩
      rw [s_formula m _ hm (by omega), if_neg (by omega)]
      have h1 : m - (m - (u0 + v0 + 2) % m / 2) = (u0 + v0 + 2) % m / 2 := by
        omega
      rw [h1]
      have h2 : 2 * ((u0 + v0 + 2) % m / 2) = (u0 + v0 + 2) % m := by omega
      rw [h2]
      exact (Nat.mod_eq_of_lt hclt).symm
  · refine ⟨m - ((u0 + v0 + 2) % m + m) / 2, by omega, ?_⟩
    rw [s_formula m _ hm (by omega), if_neg (by omega)]
    have h1 : m - (m - ((u0 + v0 + 2) % m + m) / 2) =
        ((u0 + v0 + 2) % m + m) / 2 := by omega
    rw [h1]
    have h2 : 2 * (((u0 + v0 + 2) % m + m) / 2) = (u0 + v0 + 2) % m + m := by
      omega
    rw [h2, Nat.add_mod_right, Nat.mod_eq_of_lt hclt]

/-- The sum-congruence condition picks out exactly one round. -/
theorem mid_cond_iff (m u0 v0 k k0 : Nat) (hm3 : 3 ≤ m) (hodd : m % 2 = 1)
    (hu : u0 < m) (hv : v0 < m) (hk : k < m) (hk0 : k0 < m)
    (hcond0 : (u0 + v0 + 2) % m = (2 * ((k0 * (m - 1)) % m)) % m) :
    ((u0 + v0 + 2) % m = (2 * ((k * (m - 1)) % m)) % m) ↔ k = k0 := by
  have hm : 0 < m := by omega
  constructor
  · intro hcond
    have hsk : ((k * (m - 1)) % m = 0 ∧ k = 0) ∨
        ((k * (m - 1)) % m + k = m ∧ 1 ≤ k) := by
      have hsf := s_formula m k hm hk
      by_cases hk2 : k = 0
      · left
        rw [hsf, if_pos hk2, hk2]
        exact ⟨rfl, rfl⟩
      · right
        rw [hsf, if_neg hk2]
        omega
    have hsk0 : ((k0 * (m - 1)) % m = 0 ∧ k0 = 0) ∨
        ((k0 * (m - 1)) % m + k0 = m ∧ 1 ≤ k0) := by
      have hsf := s_formula m k0 hm hk0
      by_cases hk2 : k0 = 0
      · left
        rw [hsf, if_pos hk2, hk2]
        exact ⟨rfl, rfl⟩
      · right
        rw [hsf, if_neg hk2]
        omega
    have hslt : (k * (m - 1)) % m < m := Nat.mod_lt _ hm
    have hslt0 : (k0 * (m - 1)) % m < m := Nat.mod_lt _ hm
    obtain ⟨X1, hX1eq, hX1, hX1lt⟩ : ∃ X1,
        (2 * ((k * (m - 1)) % m)) % m = X1 ∧
        (X1 = 2 * ((k * (m - 1)) % m) ∨
          X1 + m = 2 * ((k * (m - 1)) % m)) ∧ X1 < m :=
      ⟨_, rfl, mod2_add _ m (by omega), Nat.mod_lt _ hm⟩
    obtain ⟨X2, hX2eq, hX2, hX2lt⟩ : ∃ X2,
        (2 * ((k0 * (m - 1)) % m)) % m = X2 ∧
        (X2 = 2 * ((k0 * (m - 1)) % m) ∨
          X2 + m = 2 * ((k0 * (m - 1)) % m)) ∧ X2 < m :=
      ⟨_, rfl, mod2_add _ m (by omega), Nat.mod_lt _ hm⟩
    rw [hX1eq] at hcond
    rw [hX2eq] at hcond0
    clear hX1eq hX2eq
    omega
  · intro h
    rw [h]
    exact hcond0

/-- Across the whole schedule, two distinct tail elements meet exactly
once. -/
theorem rr_total_mid (p0 : Option Nat) (q : List (Option Nat))
    (hnd : (p0 :: q).Nodup) (hodd : q.length % 2 = 1) (u0 v0 : Nat)
    (hu : u0 < q.length) (hv : v0 < q.length) (huv : u0 ≠ v0) :
    ((Main.rrSched (q.length + 1) q.length (p0 :: q)).map
      (List.countP (mp2 (q.getD u0 none) (q.getD v0 none)))).sum = 1 := by
  have hm : 0 < q.length := by omega
  have hm3 : 3 ≤ q.length := by omega
  have hq : q ≠ [] := by
    intro h
    rw [h] at hm
    simp at hm
  obtain ⟨k0, hk0lt, hk0c⟩ := mid_k_exists q.length u0 v0 hm3 hodd hu hv
  rw [rrSched_closed p0 q hq, List.map_map]
  have hpt : ∀ k ∈ List.range q.length,
      (List.countP (mp2 (q.getD u0 none) (q.getD v0 none)) ∘ fun k =>
        Main.rrRound (q.length + 1)
          (p0 :: q.rotate ((k * (q.length - 1)) % q.length))) k =
      (fun k => if k = k0 then 1 else 0) k := by
    intro k hk
    rw [List.mem_range] at hk
    show (Main.rrRound (q.length + 1)
        (p0 :: q.rotate ((k * (q.length - 1)) % q.length))).countP
        (mp2 (q.getD u0 none) (q.getD v0 none)) = _
    rw [round_count_mid p0 q hnd hodd u0 v0 ((k * (q.length - 1)) % q.length)
      hu hv huv (Nat.mod_lt _ hm)]
    exact if_congr (mid_cond_iff q.length u0 v0 k k0 hm3 hodd hu hv hk hk0lt
      hk0c) rfl rfl
  rw [List.map_congr_left hpt, sum_ite_range]
  rw [if_pos hk0lt]

/-- The padded player list of a duplicate-free pool is duplicate-free. -/
theorem rrPlayers_nodup (ids : List Nat) (hnd : ids.Nodup) :
    (Main.rrPlayers ids).Nodup := by
  have h1 : (ids.map some).Nodup :=
    hnd.map (fun a b h => Option.some.inj h)
  unfold Main.rrPlayers
  by_cases h : ids.length % 2 = 1
  · rw [if_pos h, List.nodup_append]
    refine ⟨h1, List.nodup_singleton _, ?_⟩
    intro a ha hb
    rw [List.mem_singleton] at hb
    subst hb
    rcases List.mem_map.mp ha with ⟨x, _, hx⟩
    exact Option.noConfusion hx
  · rw [if_neg h]
    exact h1

/-- The padded player list of a nonempty pool starts with its first team. -/
theorem rrPlayers_eq_cons (i0 : Nat) (ids2 : List Nat) :
    Main.rrPlayers (i0 :: ids2) = some i0 ::
      (if (i0 :: ids2).length % 2 = 1 then ids2.map some ++ [none]
       else ids2.map some) := by
  unfold Main.rrPlayers
  by_cases h : (i0 :: ids2).length % 2 = 1
  · rw [if_pos h, if_pos h]
    rfl
  · rw [if_neg h, if_neg h]
    rfl

/-- gen_roundrobin_pairs, rewritten over an explicit head/tail split of the
padded player list. -/
theorem gen_eq_sched (ids : List Nat) (p0 : Option Nat)
    (q : List (Option Nat)) (h : Main.rrPlayers ids = p0 :: q) :
    Main.gen_roundrobin_pairs ids =
      Main.rrSched (q.length + 1) q.length (p0 :: q) := by
  show Main.rrSched (Main.rrPlayers ids).length
    ((Main.rrPlayers ids).length - 1) (Main.rrPlayers ids) = _
  rw [h, List.length_cons, Nat.add_sub_cancel]

/-- Across the whole schedule, every unordered pair of distinct players
appears exactly once. -/
theorem rr_pair_once (p0 : Option Nat) (q : List (Option Nat))
    (hnd : (p0 :: q).Nodup) (hodd : q.length % 2 = 1)
    (x y : Option Nat) (hx : x ∈ p0 :: q) (hy : y ∈ p0 :: q) (hxy : x ≠ y) :
    ((Main.rrSched (q.length + 1) q.length (p0 :: q)).map
      (List.countP (mp2 x y))).sum = 1 := by
  rcases List.mem_cons.mp hx with rfl | hxq
  · rcases List.mem_cons.mp hy with rfl | hyq
    · exact absurd rfl hxy
    · obtain ⟨j0, hj0, hval⟩ := List.mem_iff_getElem.mp hyq
      have hvd : q.getD j0 none = y := by
        rw [List.getD_eq_getElem _ _ hj0]
        exact hval
      rw [← hvd]
      exact rr_total_left x q hnd j0 hj0
  · rcases List.mem_cons.mp hy with rfl | hyq
    · rw [mp2_comm x y]
      obtain ⟨j0, hj0, hval⟩ := List.mem_iff_getElem.mp hxq
      have hvd : q.getD j0 none = x := by
        rw [List.getD_eq_getElem _ _ hj0]
        exact hval
      rw [← hvd]
      exact rr_total_left y q hnd j0 hj0
    · obtain ⟨u0, hu0, huval⟩ := List.mem_iff_getElem.mp hxq
      obtain ⟨v0, hv0, hvval⟩ := List.mem_iff_getElem.mp hyq
      have hud : q.getD u0 none = x := by
        rw [List.getD_eq_getElem _ _ hu0]
        exact huval
      have hvd : q.getD v0 none = y := by
        rw [List.getD_eq_getElem _ _ hv0]
        exact hvval
      have huv : u0 ≠ v0 := by
        intro h
        apply hxy
        rw [← hud, ← hvd, h]
      rw [← hud, ← hvd]
      exact rr_total_mid p0 q hnd hodd u0 v0 hu0 hv0 huv

/-- Every pool member appears in the padded player list. -/
theorem mem_rrPlayers (ids : List Nat) (a : Nat) (ha : a ∈ ids) :
    some a ∈ Main.rrPlayers ids := by
  unfold Main.rrPlayers
  by_cases h : ids.length % 2 = 1
  · rw [if_pos h]
    exact List.mem_append_left _ (List.mem_map.mpr ⟨a, ha, rfl⟩)
  · rw [if_neg h]
    exact List.mem_map.mpr ⟨a, ha, rfl⟩

/-- **C5.** For every duplicate-free pool of N ≥ 2 teams,
main.gen_roundrobin_pairs produces N−1 rounds when N is even and N rounds
when N is odd; for odd N every round holds exactly one BYE pair (a pair
with an empty side, dropped from the output by match_add); and across the
full schedule every unordered pair of distinct real teams appears exactly
once. -/
theorem C5_round_robin_schedule (ids : List Nat) (hnd : ids.Nodup)
    (h2 : 2 ≤ ids.length) :
    ((ids.length % 2 = 0 →
        (Main.gen_roundrobin_pairs ids).length = ids.length - 1) ∧
     (ids.length % 2 = 1 →
        (Main.gen_roundrobin_pairs ids).length = ids.length)) ∧
    (ids.length % 2 = 1 →
      ∀ rnd ∈ Main.gen_roundrobin_pairs ids,
        rnd.countP (fun p => p.1 == none || p.2 == none) = 1) ∧
    (∀ a ∈ ids, ∀ b ∈ ids, a ≠ b →
      ((Main.gen_roundrobin_pairs ids).map
        (List.countP (mp2 (some a) (some b)))).sum = 1) := by
  obtain ⟨i0, ids2, rfl⟩ : ∃ i0 ids2, ids = i0 :: ids2 := by
    cases ids with
    | nil => simp at h2
    | cons a l => exact ⟨a, l, rfl⟩
  by_cases hpar : (i0 :: ids2).length % 2 = 1
  · have hP : Main.rrPlayers (i0 :: ids2) =
        some i0 :: (ids2.map some ++ [none]) := by
      rw [rrPlayers_eq_cons, if_pos hpar]
    have hqlen : (ids2.map some ++ [none]).length = (i0 :: ids2).length := by
      simp
    have hqodd : (ids2.map some ++ [none]).length % 2 = 1 := by
      rw [hqlen]
      exact hpar
    have hndP : (some i0 :: (ids2.map some ++ [none])).Nodup := by
      rw [← hP]
      exact rrPlayers_nodup _ hnd
    have hgen := gen_eq_sched (i0 :: ids2) (some i0) (ids2.map some ++ [none]) hP
    have hm : 0 < (ids2.map some ++ [none]).length := by
      rw [hqlen]
      omega
    have hm3 : 3 ≤ (ids2.map some ++ [none]).length := by
      rw [hqlen]
      omega
    have hq : (ids2.map some ++ [none]) ≠ [] := by
      intro h
      rw [h] at hm
      simp at hm
    refine ⟨⟨fun he => absurd hpar (by omega), fun _ => ?_⟩, fun _ => ?_, ?_⟩
    · rw [hgen, rrSched_length, hqlen]
    · intro rnd hrnd
      rw [hgen, rrSched_closed _ _ hq] at hrnd
      rcases List.mem_map.mp hrnd with ⟨k, hk, heq⟩
      rw [List.mem_range] at hk
      subst heq
      exact round_count_bye (some i0) (ids2.map some ++ [none]) hndP hqodd
        hm3 (fun h => Option.noConfusion h)
        (List.mem_append_right _ (List.mem_singleton.mpr rfl))
        _ (Nat.mod_lt _ hm)
    · intro a ha b hb hab
      have hxmem : some a ∈ some i0 :: (ids2.map some ++ [none]) :=
        hP ▸ mem_rrPlayers _ a ha
      have hymem : some b ∈ some i0 :: (ids2.map some ++ [none]) :=
        hP ▸ mem_rrPlayers _ b hb
      rw [hgen]
      exact rr_pair_once (some i0) (ids2.map some ++ [none]) hndP hqodd
        (some a) (some b) hxmem hymem (fun h => hab (Option.some.inj h))
  · have hP : Main.rrPlayers (i0 :: ids2) = some i0 :: ids2.map some := by
      rw [rrPlayers_eq_cons, if_neg hpar]
    have hqlen : (ids2.map some).length = ids2.length := by simp
    have hqodd : (ids2.map some).length % 2 = 1 := by
      rw [hqlen]
      have : (i0 :: ids2).length = ids2.length + 1 := rfl
      omega
    have hndP : (some i0 :: ids2.map some).Nodup := by
      rw [← hP]
      exact rrPlayers_nodup _ hnd
    have hgen := gen_eq_sched (i0 :: ids2) (some i0) (ids2.map some) hP
    refine ⟨⟨fun _ => ?_, fun ho => absurd ho hpar⟩,
      fun ho => absurd ho hpar, ?_⟩
    · rw [hgen, rrSched_length, hqlen]
      rfl
    · intro a ha b hb hab
      have hxmem : some a ∈ some i0 :: ids2.map some :=
        hP ▸ mem_rrPlayers _ a ha
      have hymem : some b ∈ some i0 :: ids2.map some :=
        hP ▸ mem_rrPlayers _ b hb
      rw [hgen]
      exact rr_pair_once (some i0) (ids2.map some) hndP hqodd
        (some a) (some b) hxmem hymem (fun h => hab (Option.some.inj h))

/-- Witness for C5 at the concrete 3-team pool [1, 2, 3]. -/
theorem C5_round_robin_schedule_witness :
    ([1, 2, 3] : List Nat).Nodup ∧ 2 ≤ ([1, 2, 3] : List Nat).length ∧
    ((([1, 2, 3] : List Nat).length % 2 = 0 →
        (Main.gen_roundrobin_pairs [1, 2, 3]).length =
          ([1, 2, 3] : List Nat).length - 1) ∧
     (([1, 2, 3] : List Nat).length % 2 = 1 →
        (Main.gen_roundrobin_pairs [1, 2, 3]).length =
          ([1, 2, 3] : List Nat).length)) ∧
    (([1, 2, 3] : List Nat).length % 2 = 1 →
      ∀ rnd ∈ Main.gen_roundrobin_pairs [1, 2, 3],
        rnd.countP (fun p => p.1 == none || p.2 == none) = 1) ∧
    (∀ a ∈ ([1, 2, 3] : List Nat), ∀ b ∈ ([1, 2, 3] : List Nat), a ≠ b →
      ((Main.gen_roundrobin_pairs [1, 2, 3]).map
        (List.countP (mp2 (some a) (some b)))).sum = 1) :=
  ⟨by decide, by decide, C5_round_robin_schedule [1, 2, 3] (by decide) (by decide)⟩
